import Mathlib

/-!
# proglog: the record store and the offset index

A shallow embedding of `internal/log/store.go` and `internal/log/index.go`.

* Bytes are `Fin 256`; Go's unsigned 64-bit and 32-bit integers are natural numbers that
  are reduced modulo `2^64` / `2^32` wherever the Go code can wrap.
* The operating system is a small state machine `OsFile`: the bytes of the file, the write
  offset of the descriptor, a schedule that says which of the coming system calls fail, and
  the trace of the system calls made so far.
* `bufio.Writer` is embedded with its buffer, its capacity and its sticky error, following
  the Go standard library.
* A Go run-time panic (slice bounds out of range in the index, `make` with a length out
  of range in `store.Read`) is the result `none` of the operation.
* The mutex of the store is not part of the embedding: every operation is modelled as the
  sequential run of its body.
-/

namespace Proglog

/-! ## Bytes and big-endian encoding (`encoding/binary`, `enc = binary.BigEndian`) -/

/-- One byte. -/
abbrev Byte := Fin 256

/-- Go conversion `byte(v)`: the low eight bits of `v`. -/
def byte (v : Nat) : Byte := ⟨v % 256, Nat.mod_lt v (by decide)⟩

/-- Go conversion `uint32(v)` of a signed integer: the low 32 bits. -/
def uint32 (v : Int) : Nat := (v % 2 ^ 32).toNat

/-- Go conversion `int64(v)` of an unsigned 64-bit value: two's complement reading. -/
def int64 (v : Nat) : Int :=
  if v % 2 ^ 64 < 2 ^ 63 then ((v % 2 ^ 64 : Nat) : Int) else ((v % 2 ^ 64 : Nat) : Int) - 2 ^ 64

/-- Addition of two `uint64` values. -/
def add64 (a b : Nat) : Nat := (a + b) % 2 ^ 64

/-- Subtraction of two `uint64` values. -/
def sub64 (a b : Nat) : Nat := (a + 2 ^ 64 - b % 2 ^ 64) % 2 ^ 64

/-- Multiplication of two `uint64` values. -/
def mul64 (a b : Nat) : Nat := (a * b) % 2 ^ 64

/-- The bytes `enc.PutUint32` stores: most significant byte first. -/
def PutUint32 (v : Nat) : List Byte :=
  [byte (v / 2 ^ 24), byte (v / 2 ^ 16), byte (v / 2 ^ 8), byte v]

/-- The bytes `enc.PutUint64` stores: most significant byte first. -/
def PutUint64 (v : Nat) : List Byte :=
  [byte (v / 2 ^ 56), byte (v / 2 ^ 48), byte (v / 2 ^ 40), byte (v / 2 ^ 32),
   byte (v / 2 ^ 24), byte (v / 2 ^ 16), byte (v / 2 ^ 8), byte v]

/-- The value `enc.Uint32` reads from a slice; the Go function panics on a slice shorter
than four bytes, which is `none` here. -/
def Uint32 : List Byte → Option Nat
  | b0 :: b1 :: b2 :: b3 :: _ =>
      some (b3.val + b2.val * 2 ^ 8 + b1.val * 2 ^ 16 + b0.val * 2 ^ 24)
  | _ => none

/-- The value `enc.Uint64` reads from a slice; the Go function panics on a slice shorter
than eight bytes, which is `none` here. -/
def Uint64 : List Byte → Option Nat
  | b0 :: b1 :: b2 :: b3 :: b4 :: b5 :: b6 :: b7 :: _ =>
      some (b7.val + b6.val * 2 ^ 8 + b5.val * 2 ^ 16 + b4.val * 2 ^ 24 + b3.val * 2 ^ 32
        + b2.val * 2 ^ 40 + b1.val * 2 ^ 48 + b0.val * 2 ^ 56)
  | _ => none

/-- The Go slice expression `m[lo:hi]` of a slice whose length and capacity are
`m.length`; `none` is the run-time panic "slice bounds out of range". -/
def slice (m : List Byte) (lo hi : Nat) : Option (List Byte) :=
  if lo ≤ hi ∧ hi ≤ m.length then some ((m.take hi).drop lo) else none

/-- Storing the bytes `bs` through the slice `m[lo:hi]`, as `enc.PutUint32(m[lo:hi], v)`
does: the result is the whole of `m` afterwards; `none` is a run-time panic (bad slice
bounds, or a slice too short for `bs`). -/
def putSlice (m : List Byte) (lo hi : Nat) (bs : List Byte) : Option (List Byte) :=
  if lo ≤ hi ∧ hi ≤ m.length ∧ bs.length ≤ hi - lo then
    some (m.take lo ++ bs ++ m.drop (lo + bs.length))
  else none

/-! ## Errors -/

/-- The error values the two components return. -/
inductive Error where
  /-- The value `io.EOF`. -/
  | EOF
  /-- The value `io.ErrShortWrite`. -/
  | ErrShortWrite
  /-- An invalid argument: a negative offset or length, or an empty mapping. -/
  | EINVAL
  /-- The error of a system call that the schedule of the file makes fail. -/
  | Errno
  deriving DecidableEq, Repr

/-! ## The operating system: files, `os.File`, `gommap` -/

/-- The system calls the two components make. -/
inductive Syscall where
  | stat
  | write (len : Nat)
  | pread (off len : Nat)
  | truncate (size : Int)
  | mmap
  | msync
  | fsync
  | close
  deriving DecidableEq, Repr

/-- A file together with one open descriptor on it.
`faults` is the schedule of the coming system calls: its head is `none` when the next call
succeeds and `some k` when it fails (a failing `write` or `pread` still transfers at most
`k` bytes); an empty schedule means that every call succeeds. -/
structure OsFile where
  /-- The bytes of the file. -/
  data : List Byte
  /-- The offset at which the descriptor writes next. -/
  off : Nat
  /-- Outcome of the coming system calls. -/
  faults : List (Option Nat)
  /-- The system calls made so far, oldest first. -/
  trace : List Syscall
  deriving DecidableEq, Repr

/-- Outcome of the next system call. -/
def OsFile.fault (f : OsFile) : Option Nat :=
  match f.faults with
  | [] => none
  | o :: _ => o

/-- Records one system call and consumes its entry of the schedule. -/
def OsFile.call (f : OsFile) (c : Syscall) : OsFile :=
  { f with faults := f.faults.tail, trace := f.trace ++ [c] }

/-- No system call of the schedule fails. -/
def OsFile.NoFault (f : OsFile) : Prop := ∀ o ∈ f.faults, o = none

instance (f : OsFile) : Decidable f.NoFault := by
  unfold OsFile.NoFault; infer_instance

/-- The bytes of a file after `p` was written at offset `off`: a write past the end leaves
a hole of zero bytes, a write of nothing changes nothing. -/
def writeAt (d : List Byte) (off : Nat) (p : List Byte) : List Byte :=
  if p.length = 0 then d
  else d.take off ++ List.replicate (off - d.length) 0 ++ p ++ d.drop (off + p.length)

/-- The bytes of a file after a truncation to `size` bytes: cut, or extended with zeros. -/
def resize (d : List Byte) (size : Nat) : List Byte :=
  d.take size ++ List.replicate (size - d.length) 0

/-- The method `(*os.File).Write`: returns the number of bytes written and the error. -/
def OsFile.Write (f : OsFile) (p : List Byte) : OsFile × Nat × Option Error :=
  match f.fault with
  | none =>
      ({ f.call (.write p.length) with
          data := writeAt f.data f.off p, off := f.off + p.length }, p.length, none)
  | some k =>
      ({ f.call (.write p.length) with
          data := writeAt f.data f.off (p.take k), off := f.off + min k p.length },
        min k p.length, some .Errno)

/-- The method `(*os.File).ReadAt` on the buffer `b`: returns the buffer afterwards, the
number of bytes read and the error. A negative offset is refused; an empty buffer is
filled without a system call; fewer than `len(b)` bytes available is `io.EOF`. -/
def OsFile.ReadAt (f : OsFile) (b : List Byte) (off : Int) :
    OsFile × List Byte × Nat × Option Error :=
  if off < 0 then (f, b, 0, some .EINVAL)
  else if b.length = 0 then (f, b, 0, none)
  else
    match f.fault with
    | some k =>
        let got := ((f.data.drop off.toNat).take b.length).take k
        (f.call (.pread off.toNat b.length), got ++ b.drop got.length, got.length,
          some .Errno)
    | none =>
        let got := (f.data.drop off.toNat).take b.length
        if got.length = b.length then
          (f.call (.pread off.toNat b.length), got, got.length, none)
        else
          (f.call (.pread off.toNat b.length), got ++ b.drop got.length, got.length,
            some .EOF)

/-- The function `os.Stat` on the name of the file: the size of the file. -/
def OsFile.Stat (f : OsFile) : OsFile × Nat × Option Error :=
  match f.fault with
  | none => (f.call .stat, f.data.length, none)
  | some _ => (f.call .stat, 0, some .Errno)

/-- The functions `os.Truncate` and `(*os.File).Truncate`: a negative size is refused. -/
def OsFile.Truncate (f : OsFile) (size : Int) : OsFile × Option Error :=
  match f.fault with
  | none =>
      if size < 0 then (f.call (.truncate size), some .EINVAL)
      else ({ f.call (.truncate size) with data := resize f.data size.toNat }, none)
  | some _ => (f.call (.truncate size), some .Errno)

/-- The method `(*os.File).Sync`: the fsync system call. -/
def OsFile.Sync (f : OsFile) : OsFile × Option Error :=
  match f.fault with
  | none => (f.call .fsync, none)
  | some _ => (f.call .fsync, some .Errno)

/-- The method `(*os.File).Close`. -/
def OsFile.Close (f : OsFile) : OsFile × Option Error :=
  match f.fault with
  | none => (f.call .close, none)
  | some _ => (f.call .close, some .Errno)

/-- The function `gommap.Map` with `PROT_READ|PROT_WRITE` and `MAP_SHARED`: the mapping
covers the whole file; mapping an empty file is refused by the kernel. -/
def gommapMap (f : OsFile) : OsFile × List Byte × Option Error :=
  match f.fault with
  | none =>
      if f.data.length = 0 then (f.call .mmap, [], some .EINVAL)
      else (f.call .mmap, f.data, none)
  | some _ => (f.call .mmap, [], some .Errno)

/-- The method `gommap.MMap.Sync(MS_SYNC)`: the bytes of the mapping `m` are written back
to the file. -/
def mmapSync (f : OsFile) (m : List Byte) : OsFile × Option Error :=
  match f.fault with
  | none => ({ f.call .msync with data := m ++ f.data.drop m.length }, none)
  | some _ => (f.call .msync, some .Errno)

/-! ## `bufio.Writer` -/

/-- The type `bufio.Writer` without its destination, which is passed to every method. -/
structure Writer where
  /-- The sticky error `b.err`. -/
  err : Option Error
  /-- The buffered bytes `b.buf[0:b.n]`. -/
  buf : List Byte
  /-- The capacity `len(b.buf)`. -/
  cap : Nat
  deriving DecidableEq, Repr

/-- The constant `defaultBufSize` of package `bufio`. -/
def defaultBufSize : Nat := 4096

/-- The function `bufio.NewWriter`. -/
def NewWriter : Writer := { err := none, buf := [], cap := defaultBufSize }

/-- The method `Available`. -/
def Writer.Available (b : Writer) : Nat := b.cap - b.buf.length

/-- The method `Buffered`. -/
def Writer.Buffered (b : Writer) : Nat := b.buf.length

/-- The method `Flush`. -/
def Writer.Flush (b : Writer) (f : OsFile) : Writer × OsFile × Option Error :=
  match b.err with
  | some e => (b, f, some e)
  | none =>
      if b.buf.length = 0 then (b, f, none)
      else
        match f.Write b.buf with
        | (g, n, some e) => ({ b with buf := b.buf.drop n, err := some e }, g, some e)
        | (g, n, none) =>
            if n < b.buf.length then
              ({ b with buf := b.buf.drop n, err := some .ErrShortWrite }, g,
                some .ErrShortWrite)
            else ({ b with buf := [] }, g, none)

/-- The loop of the method `Write`: while `p` does not fit and no error is pending, either
write `p` to the file directly (empty buffer) or fill the buffer and flush it. Returns the
writer, the file, the rest of `p` and the count `nn`. Two rounds are enough whenever the
capacity is positive; `fuel` bounds the number of rounds. -/
def Writer.writeLoop : Nat → Writer → OsFile → List Byte → Nat →
    Writer × OsFile × List Byte × Nat
  | 0, b, f, p, nn => (b, f, p, nn)
  | fuel + 1, b, f, p, nn =>
      if b.Available < p.length ∧ b.err = none then
        if b.Buffered = 0 then
          match f.Write p with
          | (g, n, e) => Writer.writeLoop fuel { b with err := e } g (p.drop n) (nn + n)
        else
          match ({ b with buf := b.buf ++ p.take b.Available } : Writer).Flush f with
          | (b1, g, _) =>
              Writer.writeLoop fuel b1 g (p.drop (min b.Available p.length))
                (nn + min b.Available p.length)
      else (b, f, p, nn)

/-- The method `Write`: returns the number of bytes accepted and the error. -/
def Writer.Write (b : Writer) (f : OsFile) (p : List Byte) :
    Writer × OsFile × Nat × Option Error :=
  match Writer.writeLoop (p.length + 2) b f p 0 with
  | (b1, g, q, nn) =>
      match b1.err with
      | some e => (b1, g, nn, some e)
      | none =>
          ({ b1 with buf := b1.buf ++ q.take b1.Available }, g,
            nn + min b1.Available q.length, none)

/-- The call `binary.Write(w, enc, v)` for a `uint64` value `v`: the eight bytes of `v`
go through `w.Write`, whose error is returned. -/
def binaryWrite (b : Writer) (f : OsFile) (v : Nat) : Writer × OsFile × Option Error :=
  match b.Write f (PutUint64 v) with
  | (b1, g, _, e) => (b1, g, e)

/-! ## The record store (`store.go`) -/

/-- The constant `lenWidth`: number of bytes used to store the length of a record. -/
def lenWidth : Nat := 8

/-- The type `store`: the embedded file, the buffered writer on it, the size counter. -/
structure store where
  File : OsFile
  buf : Writer
  size : Nat
  deriving DecidableEq, Repr

/-- The function `newStore`. -/
def newStore (f : OsFile) : Except (OsFile × Error) store :=
  match f.Stat with
  | (f1, _, some e) => .error (f1, e)
  | (f1, sz, none) => .ok { File := f1, size := sz, buf := NewWriter }

/-- The method `Append`: returns the store afterwards and `(n, pos, err)`. -/
def store.Append (s : store) (p : List Byte) : store × Nat × Nat × Option Error :=
  let pos := s.size
  match binaryWrite s.buf s.File (p.length % 2 ^ 64) with
  | (b1, f1, some e) => ({ s with buf := b1, File := f1 }, 0, 0, some e)
  | (b1, f1, none) =>
      match b1.Write f1 p with
      | (b2, f2, _, some e) => ({ s with buf := b2, File := f2 }, 0, 0, some e)
      | (b2, f2, w, none) =>
          ({ s with buf := b2, File := f2, size := add64 s.size ((w + lenWidth) % 2 ^ 64) },
            (w + lenWidth) % 2 ^ 64, pos, none)

/-- The constant `maxAlloc` of the Go run time on 64-bit platforms (48 address bits): the
largest number of bytes one allocation can have. -/
def maxAlloc : Nat := 2 ^ 48 - 1

/-- The expression `make([]byte, n)` for a `uint64` length `n`: `n` zero bytes; `none` is
the run-time panic "makeslice: len out of range", raised when `n` exceeds `maxAlloc`. An
allocation within that limit is taken to succeed. -/
def makeBytes (n : Nat) : Option (List Byte) :=
  if n ≤ maxAlloc then some (List.replicate n 0) else none

/-- The method `Read`: returns the store afterwards and `(bytes, err)`; the nil slice is
the inner `none`, and the result `none` is a run-time panic, raised by
`make([]byte, enc.Uint64(size))` when the eight bytes read at `pos` decode to a length
beyond `maxAlloc`. -/
def store.Read (s : store) (pos : Nat) :
    Option (store × Option (List Byte) × Option Error) :=
  match s.buf.Flush s.File with
  | (b1, f1, some e) => some ({ s with buf := b1, File := f1 }, none, some e)
  | (b1, f1, none) =>
      match f1.ReadAt (List.replicate lenWidth 0) (int64 pos) with
      | (f2, _, _, some e) => some ({ s with buf := b1, File := f2 }, none, some e)
      | (f2, size, _, none) =>
          match makeBytes ((Uint64 size).getD 0) with
          | none => none
          | some b0 =>
              match f2.ReadAt b0 (int64 (add64 pos lenWidth)) with
              | (f3, _, _, some e) => some ({ s with buf := b1, File := f3 }, none, some e)
              | (f3, b, _, none) => some ({ s with buf := b1, File := f3 }, some b, none)

/-- The method `ReadAt` on the buffer `p`: returns the store and the buffer afterwards and
`(n, err)`. -/
def store.ReadAt (s : store) (p : List Byte) (off : Int) :
    store × List Byte × Nat × Option Error :=
  match s.buf.Flush s.File with
  | (b1, f1, some e) => ({ s with buf := b1, File := f1 }, p, 0, some e)
  | (b1, f1, none) =>
      match f1.ReadAt p off with
      | (f2, q, n, e) => ({ s with buf := b1, File := f2 }, q, n, e)

/-- The method `Close`. -/
def store.Close (s : store) : store × Option Error :=
  match s.buf.Flush s.File with
  | (b1, f1, some e) => ({ s with buf := b1, File := f1 }, some e)
  | (b1, f1, none) =>
      match f1.Close with
      | (f2, e) => ({ s with buf := b1, File := f2 }, e)

/-- Appends the payloads in order: the store afterwards and the `(n, pos, err)` of every
call, in order. -/
def store.AppendAll : store → List (List Byte) → store × List (Nat × Nat × Option Error)
  | s, [] => (s, [])
  | s, p :: ps =>
      match s.Append p with
      | (s1, r) =>
          match store.AppendAll s1 ps with
          | (s2, rs) => (s2, r :: rs)

/-! ## The offset index (`index.go`) -/

/-- The variable `offWidth`. -/
def offWidth : Nat := 4

/-- The variable `posWidth`. -/
def posWidth : Nat := 8

/-- The variable `entWidth`. -/
def entWidth : Nat := offWidth + posWidth

/-- Modelled from the spec: the segment part of the type `Config`, which is declared
outside the two files; the spec names its only parameter, `MaxIndexBytes`, the maximum
index file size in bytes. -/
structure SegmentConfig where
  MaxIndexBytes : Nat
  deriving DecidableEq, Repr

/-- Modelled from the spec: the type `Config`, read by `newIndex` as
`c.Segment.MaxIndexBytes`. -/
structure Config where
  Segment : SegmentConfig
  deriving DecidableEq, Repr

/-- The type `index`. -/
structure index where
  file : OsFile
  mmap : List Byte
  size : Nat
  deriving DecidableEq, Repr

/-- The function `newIndex`; on failure the file as it was left and the error. -/
def newIndex (f : OsFile) (c : Config) : Except (OsFile × Error) index :=
  match f.Stat with
  | (f1, _, some e) => .error (f1, e)
  | (f1, sz, none) =>
      match f1.Truncate (int64 c.Segment.MaxIndexBytes) with
      | (f2, some e) => .error (f2, e)
      | (f2, none) =>
          match gommapMap f2 with
          | (f3, _, some e) => .error (f3, e)
          | (f3, m, none) => .ok { file := f3, mmap := m, size := sz }

/-- The method `Close`: returns the index afterwards and the error. -/
def index.Close (i : index) : index × Option Error :=
  match mmapSync i.file i.mmap with
  | (f1, some e) => ({ i with file := f1 }, some e)
  | (f1, none) =>
      match f1.Sync with
      | (f2, some e) => ({ i with file := f2 }, some e)
      | (f2, none) =>
          match f2.Truncate (int64 i.size) with
          | (f3, some e) => ({ i with file := f3 }, some e)
          | (f3, none) =>
              match f3.Close with
              | (f4, e) => ({ i with file := f4 }, e)

/-- The method `Read`: returns the index afterwards and `(out, pos, err)`; `none` is a
run-time panic. -/
def index.Read (i : index) (inp : Int) : Option (index × Nat × Nat × Option Error) :=
  if i.size = 0 then some (i, 0, 0, some .EOF)
  else
    let out := if inp = -1 then uint32 (sub64 (i.size / entWidth) 1) else uint32 inp
    let pos := mul64 out entWidth
    if i.size < add64 pos entWidth then some (i, 0, 0, some .EOF)
    else
      match slice i.mmap pos (add64 pos offWidth) with
      | none => none
      | some a =>
          match Uint32 a with
          | none => none
          | some o =>
              match slice i.mmap (add64 pos offWidth) (add64 pos entWidth) with
              | none => none
              | some c =>
                  match Uint64 c with
                  | none => none
                  | some q => some (i, o, q, none)

/-- The method `Write`: returns the index afterwards and the error; `none` is a run-time
panic. -/
def index.Write (i : index) (off pos : Nat) : Option (index × Option Error) :=
  if i.mmap.length < add64 i.size entWidth then some (i, some .EOF)
  else
    match putSlice i.mmap i.size (add64 i.size offWidth) (PutUint32 off) with
    | none => none
    | some m1 =>
        match putSlice m1 (add64 i.size offWidth) (add64 i.size entWidth) (PutUint64 pos) with
        | none => none
        | some m2 => some ({ i with mmap := m2, size := add64 i.size entWidth }, none)

/-- Writes the entries in order: the index afterwards and, for every call in order, its
error and the logical size it left; `none` is a run-time panic. -/
def index.WriteAll : index → List (Nat × Nat) → Option (index × List (Option Error × Nat))
  | i, [] => some (i, [])
  | i, e :: es =>
      match i.Write e.1 e.2 with
      | none => none
      | some (i1, err) =>
          match index.WriteAll i1 es with
          | none => none
          | some (i2, rs) => some (i2, (err, i1.size) :: rs)

/-- A file that was just created and opened: no bytes, descriptor at offset zero. -/
def OsFile.empty : OsFile := { data := [], off := 0, faults := [], trace := [] }

/-! ## Notions used by the statements -/

/-- The writer has no pending error, no system call of the file fails and the descriptor
writes at the end of the file. -/
def Sound (b : Writer) (f : OsFile) : Prop :=
  f.NoFault ∧ b.err = none ∧ f.off = f.data.length

/-- The logical content of a store: the bytes of the file followed by the bytes that are
buffered and not yet flushed. -/
def store.Content (s : store) : List Byte := s.File.data ++ s.buf.buf

/-- The bytes `Append` produces for a sequence of payloads: for each payload what
`enc.PutUint64` stores for its length, then the payload. -/
def frames : List (List Byte) → List Byte
  | [] => []
  | p :: ps => PutUint64 p.length ++ p ++ frames ps

/-- The index file format in the words of the spec: a sequence of 12-byte entries
`[4-byte big-endian relative offset][8-byte big-endian store position]`. -/
def entries : List (Nat × Nat) → List Byte
  | [] => []
  | e :: es => PutUint32 e.1 ++ PutUint64 e.2 ++ entries es

/-- The payload `"hello"`. -/
def hello : List Byte := [104, 101, 108, 108, 111]

/-- The payload `"world!!"`. -/
def world : List Byte := [119, 111, 114, 108, 100, 33, 33]

/-- The store `newStore` returns on a file that was just created. -/
def store.fresh : store := { File := OsFile.empty.call .stat, buf := NewWriter, size := 0 }

/-- A sequence of `2^32 + 1` index entries: `(7, 9)`, then `2^32` times `(0, 0)`. -/
def bigEntries : List (Nat × Nat) := (7, 9) :: List.replicate (2 ^ 32) (0, 0)

/-- A configuration whose index has room for exactly `2^32 + 1` entries. -/
def bigConfig : Config := ⟨⟨12 * (2 ^ 32 + 1)⟩⟩

/-- A file that holds two index entries, `(0, 0)` and `(1, 12)`, with a descriptor that was
just opened on it. -/
def OsFile.twoEntries : OsFile :=
  { data := entries [(0, 0), (1, 12)], off := 0, faults := [], trace := [] }

/-- A descriptor that is newly opened on the file of `f`. -/
def OsFile.reopen (f : OsFile) : OsFile :=
  { data := f.data, off := 0, faults := [], trace := [] }

/-- The big-endian encoding in the words of the spec: the `n` bytes of `v`, most
significant first; byte number `k` is `v / 256^(n-1-k)` reduced modulo 256. -/
def beBytes : Nat → Nat → List Byte
  | 0, _ => []
  | n + 1, v => byte (v / 256 ^ n) :: beBytes n v

/-- The record store file format in the words of the spec: a flat sequence of frames
`[8-byte big-endian length][length bytes of payload]` with no separators. -/
def recordFrames : List (List Byte) → List Byte
  | [] => []
  | p :: ps => beBytes 8 p.length ++ p ++ recordFrames ps

/-- The bytes of the file of a store once the buffered bytes are flushed into it, at the
offset of the descriptor; when the descriptor writes at the end of the file this is
`store.Content`. -/
def store.Flushed (s : store) : List Byte := writeAt s.File.data s.File.off s.buf.buf

/-- One call on a store: `Append`, `Read` or `ReadAt` with its arguments. -/
inductive StoreOp where
  | Append (p : List Byte)
  | Read (pos : Nat)
  | ReadAt (p : List Byte) (off : Int)

/-- The store after one call; `none` when the call ends in a run-time panic. -/
def store.step (s : store) : StoreOp → Option store
  | .Append p => some (s.Append p).1
  | .Read pos => (s.Read pos).map Prod.fst
  | .ReadAt p off => some (s.ReadAt p off).1

/-- The store after a sequence of calls, in order; `none` when one of them ends in a
run-time panic. -/
def store.run : store → List StoreOp → Option store
  | s, [] => some s
  | s, op :: ops =>
      match s.step op with
      | none => none
      | some s1 => store.run s1 ops

/-- The number of bytes a successful call adds to the store. -/
def StoreOp.bytes : StoreOp → Nat
  | .Append p => p.length + 8
  | .Read _ => 0
  | .ReadAt _ _ => 0

/-- An empty file that was just opened; the `stat` call on it succeeds and the first write
to it fails without writing a byte. -/
def OsFile.failingWrite : OsFile :=
  { data := [], off := 0, faults := [none, some 0], trace := [] }

/-- A payload of 4089 zero bytes: with its length prefix, one byte more than the buffer of
the writer holds. -/
def bigPayload : List Byte := List.replicate 4089 0

/-- A file that holds the record `"hello"` (13 bytes), with a descriptor that was just
opened on it at offset zero, not in append mode. -/
def OsFile.helloRecord : OsFile :=
  { data := frames [hello], off := 0, faults := [], trace := [] }

/-! ## Big-endian encoding, files and the buffered writer -/

theorem Uint64_PutUint64 (v : Nat) (r : List Byte) :
    Uint64 (PutUint64 v ++ r) = some (v % 2 ^ 64) := by
  simp only [PutUint64, Uint64, byte, List.cons_append, List.nil_append, Option.some.injEq]
  omega

theorem Uint32_PutUint32 (v : Nat) (r : List Byte) :
    Uint32 (PutUint32 v ++ r) = some (v % 2 ^ 32) := by
  simp only [PutUint32, Uint32, byte, List.cons_append, List.nil_append, Option.some.injEq]
  omega

theorem PutUint64_length (v : Nat) : (PutUint64 v).length = 8 := rfl

theorem PutUint32_length (v : Nat) : (PutUint32 v).length = 4 := rfl

theorem fault_of_noFault {f : OsFile} (h : f.NoFault) : f.fault = none := by
  unfold OsFile.fault
  cases hf : f.faults with
  | nil => rfl
  | cons o t => exact h o (by simp [hf])

theorem noFault_call {f : OsFile} (h : f.NoFault) (c : Syscall) : (f.call c).NoFault := by
  intro o ho
  exact h o (List.mem_of_mem_tail ho)

theorem writeAt_end (d p : List Byte) : writeAt d d.length p = d ++ p := by
  unfold writeAt
  split
  · rename_i h
    simp [List.length_eq_zero.mp h]
  · simp

theorem OsFile.Write_noFault {f : OsFile} (h : f.NoFault) (hoff : f.off = f.data.length)
    (p : List Byte) :
    ∃ g, f.Write p = (g, p.length, none) ∧ g.data = f.data ++ p ∧ g.NoFault ∧
      g.off = g.data.length := by
  refine ⟨{ f.call (.write p.length) with
      data := writeAt f.data f.off p, off := f.off + p.length }, ?_, ?_, ?_, ?_⟩
  · simp only [OsFile.Write, fault_of_noFault h]
  · simp [hoff, writeAt_end]
  · exact noFault_call h (.write p.length)
  · simp [hoff, writeAt_end]

theorem OsFile.Write_all_of_ok (f : OsFile) (p : List Byte) (h : (f.Write p).2.2 = none) :
    (f.Write p).2.1 = p.length := by
  unfold OsFile.Write at h ⊢
  cases hf : f.fault with
  | none => simp
  | some k => simp [hf] at h

theorem Writer.Flush_sound {b : Writer} {f : OsFile} (h : Sound b f) :
    ∃ g, b.Flush f = ({ b with buf := [] }, g, none) ∧ g.data = f.data ++ b.buf ∧
      Sound { b with buf := [] } g := by
  obtain ⟨hnf, herr, hoff⟩ := h
  by_cases hb : b.buf.length = 0
  · refine ⟨f, ?_, ?_, hnf, herr, hoff⟩
    · have : b.buf = [] := List.length_eq_zero.mp hb
      simp only [Writer.Flush, herr, hb, if_true]
      cases b; simp_all
    · simp [List.length_eq_zero.mp hb]
  · obtain ⟨g, hw, hd, hg, hgo⟩ := OsFile.Write_noFault hnf hoff b.buf
    refine ⟨g, ?_, hd, hg, herr, hgo⟩
    simp only [Writer.Flush, herr, hb, if_false, hw, lt_irrefl]

theorem Writer.writeLoop_exit (fuel : Nat) (b : Writer) (f : OsFile) (p : List Byte)
    (nn : Nat) (h : ¬ (b.Available < p.length ∧ b.err = none)) :
    Writer.writeLoop fuel b f p nn = (b, f, p, nn) := by
  cases fuel with
  | zero => rfl
  | succ k => simp only [Writer.writeLoop, h, if_false]

theorem Writer.writeLoop_sound_empty (k : Nat) {b : Writer} {f : OsFile} (h : Sound b f)
    (hb : b.buf = []) (p : List Byte) (nn : Nat) :
    ∃ b1 g q, Writer.writeLoop (k + 1) b f p nn = (b1, g, q, nn + (p.length - q.length)) ∧
      q.length ≤ b1.Available ∧ q.length ≤ p.length ∧ b1.cap = b.cap ∧
      g.data ++ b1.buf ++ q = f.data ++ b.buf ++ p ∧ Sound b1 g := by
  obtain ⟨hnf, herr, hoff⟩ := h
  obtain ⟨e, bf, c⟩ := b
  simp only at herr hb
  subst herr hb
  by_cases hfit : Writer.Available ⟨none, [], c⟩ < p.length
  · obtain ⟨g, hw, hd, hg, hgo⟩ := OsFile.Write_noFault hnf hoff p
    refine ⟨⟨none, [], c⟩, g, [], ?_, by simp, by simp, rfl, ?_, hg, rfl, hgo⟩
    · have hx : ¬ (Writer.Available ⟨none, [], c⟩ < (List.drop p.length p).length ∧
          (⟨none, [], c⟩ : Writer).err = none) := by simp
      rw [Writer.writeLoop]
      simp only [hfit, Writer.Buffered, List.length_nil, hw, and_self, if_true]
      rw [Writer.writeLoop_exit k _ g _ _ hx]
      simp
    · simp [hd]
  · refine ⟨_, f, p, ?_, by omega, le_refl _, rfl, rfl, hnf, rfl, hoff⟩
    rw [Writer.writeLoop_exit _ _ _ _ _ (by simp [hfit])]
    simp

theorem Writer.writeLoop_sound (k : Nat) {b : Writer} {f : OsFile} (h : Sound b f)
    (p : List Byte) (nn : Nat) :
    ∃ b1 g q, Writer.writeLoop (k + 2) b f p nn = (b1, g, q, nn + (p.length - q.length)) ∧
      q.length ≤ b1.Available ∧ q.length ≤ p.length ∧ b1.cap = b.cap ∧
      g.data ++ b1.buf ++ q = f.data ++ b.buf ++ p ∧ Sound b1 g := by
  by_cases hb : b.buf = []
  · exact Writer.writeLoop_sound_empty (k + 1) h hb p nn
  by_cases hfit : b.Available < p.length
  · obtain ⟨e, bf, c⟩ := b
    have herr : e = none := h.2.1
    subst herr
    have hS : Sound ⟨none, bf ++ p.take (Writer.Available ⟨none, bf, c⟩), c⟩ f :=
      ⟨h.1, rfl, h.2.2⟩
    obtain ⟨g, hfl, hd, hS1⟩ := Writer.Flush_sound hS
    obtain ⟨b1, g1, q, hl, h1, h2, h3, h4, h5⟩ :=
      Writer.writeLoop_sound_empty k hS1 rfl
        (p.drop (min (Writer.Available ⟨none, bf, c⟩) p.length))
        (nn + min (Writer.Available ⟨none, bf, c⟩) p.length)
    have hmin : min (Writer.Available ⟨none, bf, c⟩) p.length = Writer.Available ⟨none, bf, c⟩ := by
      omega
    simp only [hmin, List.length_drop] at hl h2 h4
    refine ⟨b1, g1, q, ?_, h1, ?_, h3, ?_, h5⟩
    · have hne : ¬ Writer.Buffered ⟨none, bf, c⟩ = 0 := by
        simpa [Writer.Buffered, List.length_eq_zero] using hb
      rw [Writer.writeLoop]
      simp only [hfit, and_self, if_true, hne, if_false, hfl, hmin]
      rw [hl]
      congr 3
      omega
    · omega
    · rw [h4, hd]
      simp [List.append_assoc]
  · refine ⟨b, f, p, ?_, by omega, le_refl _, rfl, rfl, h⟩
    rw [Writer.writeLoop_exit _ _ _ _ _ (by simp [hfit])]
    simp

theorem Writer.Write_sound {b : Writer} {f : OsFile} (h : Sound b f) (p : List Byte) :
    ∃ b1 g, b.Write f p = (b1, g, p.length, none) ∧ b1.cap = b.cap ∧
      g.data ++ b1.buf = f.data ++ b.buf ++ p ∧ Sound b1 g := by
  obtain ⟨b1, g, q, hl, h1, h2, h3, h4, h5⟩ := Writer.writeLoop_sound p.length h p 0
  refine ⟨{ b1 with buf := b1.buf ++ q.take b1.Available }, g, ?_, h3, ?_, h5.1, h5.2.1, h5.2.2⟩
  · simp only [Writer.Write, hl, h5.2.1]
    congr 3
    omega
  · simp only [List.take_of_length_le h1, ← List.append_assoc, h4]

theorem binaryWrite_sound {b : Writer} {f : OsFile} (h : Sound b f) (v : Nat) :
    ∃ b1 g, binaryWrite b f v = (b1, g, none) ∧ b1.cap = b.cap ∧
      g.data ++ b1.buf = f.data ++ b.buf ++ PutUint64 v ∧ Sound b1 g := by
  obtain ⟨b1, g, hw, h1, h2, h3⟩ := Writer.Write_sound h (PutUint64 v)
  exact ⟨b1, g, by simp only [binaryWrite, hw], h1, h2, h3⟩

theorem int64_of_lt {v : Nat} (h : v < 2 ^ 63) : int64 v = (v : Int) := by
  unfold int64
  have h1 : v % 2 ^ 64 = v := Nat.mod_eq_of_lt (by omega)
  rw [h1, if_pos h]

theorem OsFile.ReadAt_nil (f : OsFile) (off : Int) (h : 0 ≤ off) :
    f.ReadAt [] off = (f, [], 0, none) := by
  simp [OsFile.ReadAt, not_lt.mpr h]

theorem OsFile.ReadAt_noFault {f : OsFile} (hnf : f.NoFault) (pre mid post b : List Byte)
    (hd : f.data = pre ++ mid ++ post) (hb : b.length = mid.length) (hm : mid ≠ []) :
    f.ReadAt b (pre.length : Int) =
      (f.call (.pread pre.length b.length), mid, mid.length, none) := by
  have h0 : ¬ ((pre.length : Int) < 0) := by omega
  have h1 : ¬ b.length = 0 := by
    rw [hb]
    simpa [List.length_eq_zero] using hm
  have hgot : (f.data.drop pre.length).take b.length = mid := by
    rw [hd, hb, List.append_assoc, List.drop_left, List.take_left]
  rw [hb] at h1 hgot
  simp only [OsFile.ReadAt, h0, h1, if_false, fault_of_noFault hnf, Int.toNat_ofNat, hgot, hb,
    if_true]

theorem store.Append_sound {s : store} (h : Sound s.buf s.File) (p : List Byte) :
    ∃ s1, s.Append p = (s1, (p.length + lenWidth) % 2 ^ 64, s.size, none) ∧
      s1.size = add64 s.size ((p.length + lenWidth) % 2 ^ 64) ∧
      s1.Content = s.Content ++ PutUint64 (p.length % 2 ^ 64) ++ p ∧
      Sound s1.buf s1.File := by
  obtain ⟨b1, g1, hw1, _, hc1, hS1⟩ := binaryWrite_sound h (p.length % 2 ^ 64)
  obtain ⟨b2, g2, hw2, _, hc2, hS2⟩ := Writer.Write_sound hS1 p
  refine ⟨⟨g2, b2, add64 s.size ((p.length + lenWidth) % 2 ^ 64)⟩, ?_, rfl, ?_, hS2⟩
  · simp only [store.Append, hw1, hw2]
  · simp only [store.Content, hc2, hc1]

theorem store.AppendAll_sound (ps : List (List Byte)) :
    ∀ (s : store), Sound s.buf s.File →
      s.size + (8 * ps.length + (ps.map List.length).sum) < 2 ^ 64 →
      Sound (s.AppendAll ps).1.buf (s.AppendAll ps).1.File ∧
      (s.AppendAll ps).1.Content = s.Content ++ frames ps ∧
      (s.AppendAll ps).1.size = s.size + (8 * ps.length + (ps.map List.length).sum) := by
  induction ps with
  | nil =>
      intro s h _
      simp [store.AppendAll, frames, h]
  | cons p ps ih =>
      intro s h hlen
      simp only [List.length_cons, List.map_cons, List.sum_cons] at hlen
      obtain ⟨s1, ha, hsz, hc, hS⟩ := store.Append_sound h p
      have hp : (p.length + lenWidth) % 2 ^ 64 = p.length + 8 :=
        Nat.mod_eq_of_lt (by simp only [lenWidth]; omega)
      have hp2 : p.length % 2 ^ 64 = p.length := Nat.mod_eq_of_lt (by omega)
      have hsz1 : s1.size = s.size + (p.length + 8) := by
        rw [hsz, hp, add64]
        exact Nat.mod_eq_of_lt (by omega)
      obtain ⟨i1, i2, i3⟩ := ih s1 hS (by rw [hsz1]; omega)
      simp only [store.AppendAll, ha]
      refine ⟨i1, ?_, ?_⟩
      · rw [i2, hc, hp2]
        simp [frames, List.append_assoc]
      · rw [i3, hsz1]
        simp only [List.length_cons, List.map_cons, List.sum_cons]
        omega

theorem store.Read_sound {s : store} (h : Sound s.buf s.File) (pre p post : List Byte)
    (hc : s.Content = pre ++ PutUint64 p.length ++ p ++ post)
    (hlen : pre.length + 8 + p.length < 2 ^ 63) (hmem : p.length ≤ maxAlloc) :
    (s.Read pre.length).map Prod.snd = some (some p, none) := by
  obtain ⟨g, hfl, hd, hS⟩ := Writer.Flush_sound h
  have hd1 : g.data = pre ++ PutUint64 p.length ++ (p ++ post) := by
    rw [hd]
    simpa [store.Content, List.append_assoc] using hc
  have hr1 := OsFile.ReadAt_noFault hS.1 pre (PutUint64 p.length) (p ++ post)
    (List.replicate lenWidth 0) hd1 (by simp [lenWidth, PutUint64_length])
    (by simp [PutUint64])
  have hi1 : int64 pre.length = (pre.length : Int) := int64_of_lt (by omega)
  have hi2 : int64 (add64 pre.length lenWidth) = ((pre ++ PutUint64 p.length).length : Int) := by
    have : add64 pre.length lenWidth = pre.length + 8 := by
      simp only [add64, lenWidth]
      exact Nat.mod_eq_of_lt (by omega)
    rw [this, int64_of_lt (by omega)]
    simp [PutUint64_length]
  have hu : Uint64 (PutUint64 p.length) = some p.length := by
    have := Uint64_PutUint64 p.length []
    rw [List.append_nil, Nat.mod_eq_of_lt (by omega)] at this
    exact this
  simp only [store.Read, hfl, hi1, hr1, hu, Option.getD_some, hi2, makeBytes, if_pos hmem]
  by_cases hp : p = []
  · subst hp
    rw [List.length_nil, List.replicate_zero, OsFile.ReadAt_nil _ _ (by omega)]
    rfl
  · have hd2 : (g.call (Syscall.pread pre.length (List.replicate lenWidth (0 : Byte)).length)).data
        = (pre ++ PutUint64 p.length) ++ p ++ post := by
      simp only [OsFile.call, hd1, List.append_assoc]
    have hr2 := OsFile.ReadAt_noFault (noFault_call hS.1 _) (pre ++ PutUint64 p.length) p post
      (List.replicate p.length 0) hd2 (by simp) hp
    rw [hr2]
    rfl

theorem frames_length (ps : List (List Byte)) :
    (frames ps).length = 8 * ps.length + (ps.map List.length).sum := by
  induction ps with
  | nil => rfl
  | cons p ps ih =>
      simp only [frames, List.length_append, PutUint64_length, ih, List.length_cons,
        List.map_cons, List.sum_cons]
      omega

theorem store.AppendAll_nth (ps : List (List Byte)) :
    ∀ (s : store), Sound s.buf s.File → s.size = s.Content.length →
      s.size + (8 * ps.length + (ps.map List.length).sum) < 2 ^ 64 →
      ∀ (i : Nat) (p : List Byte), ps[i]? = some p →
        ∃ n pre post, (s.AppendAll ps).2[i]? = some (n, pre.length, none) ∧
          (s.AppendAll ps).1.Content = pre ++ PutUint64 p.length ++ p ++ post := by
  induction ps with
  | nil =>
      intro s _ _ _ i p hi
      simp at hi
  | cons q qs ih =>
      intro s h hsz hlen i p hi
      simp only [List.length_cons, List.map_cons, List.sum_cons] at hlen
      obtain ⟨s1, ha, hsz1, hc, hS⟩ := store.Append_sound h q
      have hq : (q.length + lenWidth) % 2 ^ 64 = q.length + 8 :=
        Nat.mod_eq_of_lt (by simp only [lenWidth]; omega)
      have hq2 : q.length % 2 ^ 64 = q.length := Nat.mod_eq_of_lt (by omega)
      have hsz2 : s1.size = s.size + (q.length + 8) := by
        rw [hsz1, hq, add64]
        exact Nat.mod_eq_of_lt (by omega)
      have hsz3 : s1.size = s1.Content.length := by
        rw [hsz2, hc, hsz]
        simp only [List.length_append, PutUint64_length]
        omega
      have hall := store.AppendAll_sound qs s1 hS (by rw [hsz2]; omega)
      cases i with
      | zero =>
          simp only [List.getElem?_cons_zero, Option.some.injEq] at hi
          subst hi
          refine ⟨(q.length + lenWidth) % 2 ^ 64, s.Content, frames qs, ?_, ?_⟩
          · simp only [store.AppendAll, ha, List.getElem?_cons_zero, hsz]
          · simp only [store.AppendAll, ha, hall.2.1, hc, hq2]
      | succ j =>
          simp only [List.getElem?_cons_succ] at hi
          obtain ⟨n, pre, post, h1, h2⟩ := ih s1 hS hsz3 (by rw [hsz2]; omega) j p hi
          exact ⟨n, pre, post, by simp only [store.AppendAll, ha, List.getElem?_cons_succ, h1],
            by simp only [store.AppendAll, ha, h2]⟩

theorem newStore_sound {f : OsFile} {s : store} (hnf : f.NoFault) (hd : f.data = [])
    (hoff : f.off = 0) (hs : newStore f = .ok s) :
    Sound s.buf s.File ∧ s.Content = [] ∧ s.size = 0 := by
  simp only [newStore, OsFile.Stat, fault_of_noFault hnf, Except.ok.injEq] at hs
  subst hs
  refine ⟨⟨noFault_call hnf _, rfl, ?_⟩, ?_, ?_⟩
  · simp [OsFile.call, hd, hoff]
  · simp [store.Content, OsFile.call, hd, NewWriter]
  · simp [hd]

/-- Claim C1 (store round-trip). A store is opened on an empty file (no bytes, descriptor
at offset zero) whose system calls do not fail, and the payloads `ps` (empty payloads
allowed) are appended in order; their total framed length is below `2^63`, the largest
size a file can have, and every payload, being a Go slice, has at most `maxAlloc` bytes.
Then for every `i`, the `i`-th `Append` returned no error and a position `pos`, and
`Read pos` on the store left by the appends does not panic and returns exactly the `i`-th
payload with no error. -/
theorem store_roundtrip (f : OsFile) (s : store) (ps : List (List Byte))
    (hd : f.data = []) (hoff : f.off = 0) (hnf : f.NoFault) (hs : newStore f = .ok s)
    (hlen : 8 * ps.length + (ps.map List.length).sum < 2 ^ 63)
    (hmem : ∀ q ∈ ps, q.length ≤ maxAlloc)
    (i : Nat) (p : List Byte) (hi : ps[i]? = some p) :
    ∃ n pos, (s.AppendAll ps).2[i]? = some (n, pos, none) ∧
      ((s.AppendAll ps).1.Read pos).map Prod.snd = some (some p, none) := by
  obtain ⟨hS, hc, hsz⟩ := newStore_sound hnf hd hoff hs
  have hall := store.AppendAll_sound ps s hS (by rw [hsz]; omega)
  obtain ⟨n, pre, post, h1, h2⟩ :=
    store.AppendAll_nth ps s hS (by rw [hsz, hc]; rfl) (by rw [hsz]; omega) i p hi
  refine ⟨n, pre.length, h1, store.Read_sound hall.1 pre p post h2 ?_
    (hmem p (List.getElem?_mem hi))⟩
  have hl := congrArg List.length h2
  rw [hall.2.1, hc, List.nil_append, frames_length] at hl
  simp only [List.length_append, PutUint64_length] at hl
  omega

theorem store_roundtrip_witness :
    ∃ n pos, (store.fresh.AppendAll [hello, world]).2[1]?
        = some (n, pos, none) ∧
      ((store.fresh.AppendAll [hello, world]).1.Read pos).map Prod.snd
        = some (some world, none) :=
  store_roundtrip OsFile.empty _ [hello, world] rfl rfl (by decide) rfl (by decide)
    (by decide) 1 world rfl

theorem PutUint64_mod (v : Nat) : PutUint64 (v % 2 ^ 64) = PutUint64 v := by
  simp only [PutUint64, byte, List.cons.injEq, Fin.mk.injEq, and_true]
  omega

theorem store.AppendAll_content (ps : List (List Byte)) :
    ∀ (s : store), Sound s.buf s.File →
      Sound (s.AppendAll ps).1.buf (s.AppendAll ps).1.File ∧
      (s.AppendAll ps).1.Content = s.Content ++ frames ps := by
  induction ps with
  | nil =>
      intro s h
      simp [store.AppendAll, frames, h]
  | cons p ps ih =>
      intro s h
      obtain ⟨s1, ha, _, hc, hS⟩ := store.Append_sound h p
      obtain ⟨i1, i2⟩ := ih s1 hS
      simp only [store.AppendAll, ha]
      refine ⟨i1, ?_⟩
      rw [i2, hc, PutUint64_mod]
      simp [frames, List.append_assoc]

theorem Writer.writeLoop_count_empty (k : Nat) (b : Writer) (f : OsFile) (p : List Byte)
    (nn : Nat) (hb : b.buf = [])
    (h : (Writer.writeLoop (k + 1) b f p nn).1.err = none) :
    (Writer.writeLoop (k + 1) b f p nn).2.2.1.length
        ≤ (Writer.writeLoop (k + 1) b f p nn).1.Available ∧
      (Writer.writeLoop (k + 1) b f p nn).2.2.2
        + (Writer.writeLoop (k + 1) b f p nn).2.2.1.length = nn + p.length := by
  by_cases hc : b.Available < p.length ∧ b.err = none
  · rw [Writer.writeLoop] at h ⊢
    simp only [hc, and_self, if_true, Writer.Buffered, hb, List.length_nil] at h ⊢
    cases hf : f.fault with
    | none =>
        simp only [OsFile.Write, hf] at h ⊢
        rw [Writer.writeLoop_exit _ _ _ _ _ (by simp)] at h ⊢
        simp
    | some j =>
        simp only [OsFile.Write, hf] at h ⊢
        rw [Writer.writeLoop_exit _ _ _ _ _ (by simp)] at h
        simp at h
  · rw [Writer.writeLoop_exit _ _ _ _ _ hc] at h ⊢
    simp only at h ⊢
    simp only [h, and_true, not_lt] at hc
    exact ⟨hc, by trivial⟩

theorem Writer.writeLoop_count (k : Nat) (b : Writer) (f : OsFile) (p : List Byte)
    (nn : Nat) (h : (Writer.writeLoop (k + 2) b f p nn).1.err = none) :
    (Writer.writeLoop (k + 2) b f p nn).2.2.1.length
        ≤ (Writer.writeLoop (k + 2) b f p nn).1.Available ∧
      (Writer.writeLoop (k + 2) b f p nn).2.2.2
        + (Writer.writeLoop (k + 2) b f p nn).2.2.1.length = nn + p.length := by
  by_cases hb : b.buf = []
  · exact Writer.writeLoop_count_empty (k + 1) b f p nn hb h
  by_cases hc : b.Available < p.length ∧ b.err = none
  · have hne : ¬ b.Buffered = 0 := by
      simpa [Writer.Buffered, List.length_eq_zero] using hb
    have hne2 : ¬ (b.buf ++ List.take b.Available p).length = 0 := by
      simp [List.length_eq_zero, hb]
    have hmin : min b.Available p.length = b.Available := by omega
    rw [Writer.writeLoop] at h ⊢
    simp only [hc, and_self, if_true, hne, if_false, Writer.Flush, hne2, hmin] at h ⊢
    cases hf : f.fault with
    | none =>
        simp only [OsFile.Write, hf, lt_irrefl, if_false] at h ⊢
        have := Writer.writeLoop_count_empty k _ _ _ _ rfl h
        simp only [List.length_drop] at this
        refine ⟨this.1, ?_⟩
        rw [this.2]
        omega
    | some j =>
        simp only [OsFile.Write, hf] at h ⊢
        rw [Writer.writeLoop_exit _ _ _ _ _ (by simp)] at h
        simp at h
  · rw [Writer.writeLoop_exit _ _ _ _ _ hc] at h ⊢
    simp only at h ⊢
    simp only [h, and_true, not_lt] at hc
    exact ⟨hc, by trivial⟩

theorem Writer.Write_count (b : Writer) (f : OsFile) (p : List Byte)
    (h : (b.Write f p).2.2.2 = none) : (b.Write f p).2.2.1 = p.length := by
  have hcount := Writer.writeLoop_count p.length b f p 0
  unfold Writer.Write at h ⊢
  rcases hr : Writer.writeLoop (p.length + 2) b f p 0 with ⟨b1, g, q, n1⟩
  rw [hr] at h hcount
  simp only at h hcount ⊢
  cases he : b1.err with
  | some e => simp [he] at h
  | none =>
      have := hcount he
      simp only [he]
      omega


theorem store.Append_ok (s : store) (p : List Byte) (h : (s.Append p).2.2.2 = none) :
    (s.Append p).2.2.1 = s.size ∧ (s.Append p).2.1 = (p.length + lenWidth) % 2 ^ 64 ∧
      (s.Append p).1.size = add64 s.size ((p.length + lenWidth) % 2 ^ 64) := by
  unfold store.Append at h ⊢
  rcases h1 : binaryWrite s.buf s.File (p.length % 2 ^ 64) with ⟨b1, f1, e1⟩
  simp only [h1] at h ⊢
  cases e1 with
  | some e => simp at h
  | none =>
      have hcount := Writer.Write_count b1 f1 p
      rcases h2 : b1.Write f1 p with ⟨b2, f2, w, e2⟩
      simp only [h2] at h hcount ⊢
      cases e2 with
      | some e => simp at h
      | none =>
          have hw : w = p.length := hcount rfl
          subst hw
          simp

theorem store.AppendAll_size (ps : List (List Byte)) :
    ∀ (s : store), (∀ r ∈ (s.AppendAll ps).2, r.2.2 = none) →
      s.size + (8 * ps.length + (ps.map List.length).sum) < 2 ^ 64 →
      (s.AppendAll ps).1.size = s.size + (8 * ps.length + (ps.map List.length).sum) := by
  induction ps with
  | nil =>
      intro s _ _
      simp [store.AppendAll]
  | cons p ps ih =>
      intro s hok hlen
      simp only [List.length_cons, List.map_cons, List.sum_cons] at hlen ⊢
      rcases ha : s.Append p with ⟨s1, r⟩
      rcases hb : s1.AppendAll ps with ⟨s2, rs⟩
      simp only [store.AppendAll, ha, hb, List.mem_cons, forall_eq_or_imp] at hok ⊢
      have h1 := store.Append_ok s p (by rw [ha]; exact hok.1)
      rw [ha] at h1
      have hsz : s1.size = s.size + (p.length + 8) := by
        have := h1.2.2
        simp only [lenWidth, add64] at this
        rw [this, Nat.mod_eq_of_lt (a := p.length + 8) (by omega)]
        exact Nat.mod_eq_of_lt (by omega)
      have h2 := ih s1 (by rw [hb]; exact hok.2) (by rw [hsz]; omega)
      rw [hb] at h2
      simp only at h2
      rw [h2, hsz]
      omega

theorem newStore_size {f : OsFile} {s : store} (hs : newStore f = .ok s) :
    s.size = f.data.length := by
  unfold newStore OsFile.Stat at hs
  cases hf : f.fault with
  | none =>
      simp only [hf, Except.ok.injEq] at hs
      subst hs
      rfl
  | some k => simp [hf] at hs

/-- Claim C3 (return values of `Append`). For every store state and payload `p`, when
`Append p` returns no error and the `uint64` size counter does not wrap
(`size + len p + 8 < 2^64`), the returned position is the size before the call, the
returned byte count is `len p + 8`, and the size afterwards is `size + len p + 8`. The
witness is the scenario of the spec: `"hello"` then `"world!!"` on an empty store return
positions 0 and 13. -/
theorem append_return_values (s : store) (p : List Byte)
    (hok : (s.Append p).2.2.2 = none) (hsz : s.size + p.length + 8 < 2 ^ 64) :
    (s.Append p).2.2.1 = s.size ∧ (s.Append p).2.1 = p.length + 8 ∧
      (s.Append p).1.size = s.size + p.length + 8 := by
  obtain ⟨h1, h2, h3⟩ := store.Append_ok s p hok
  have hm : (p.length + lenWidth) % 2 ^ 64 = p.length + 8 :=
    Nat.mod_eq_of_lt (by simp only [lenWidth]; omega)
  refine ⟨h1, by rw [h2, hm], ?_⟩
  rw [h3, hm, add64, Nat.mod_eq_of_lt (by omega)]
  omega

theorem append_return_values_witness :
    ((store.fresh.Append hello).2.2.1 = 0 ∧ (store.fresh.Append hello).2.1 = 13 ∧
        (store.fresh.Append hello).1.size = 13) ∧
      (((store.fresh.Append hello).1.Append world).2.2.1 = 13 ∧
        ((store.fresh.Append hello).1.Append world).2.1 = 15 ∧
        ((store.fresh.Append hello).1.Append world).1.size = 28) :=
  ⟨append_return_values store.fresh hello (by decide) (by decide),
    append_return_values (store.fresh.Append hello).1 world (by decide) (by decide)⟩

/-- Claim C8 (store size after appends). For a store opened on an empty file and payloads
`ps` all appended with no error, the size counter afterwards is
`8 * n + (L_1 + ... + L_n)`, as long as this sum fits the `uint64` counter. -/
theorem store_size_after_appends (f : OsFile) (s : store) (ps : List (List Byte))
    (hd : f.data = []) (hs : newStore f = .ok s)
    (hok : ∀ r ∈ (s.AppendAll ps).2, r.2.2 = none)
    (hlen : 8 * ps.length + (ps.map List.length).sum < 2 ^ 64) :
    (s.AppendAll ps).1.size = 8 * ps.length + (ps.map List.length).sum := by
  have h0 : s.size = 0 := by rw [newStore_size hs, hd]; rfl
  rw [store.AppendAll_size ps s hok (by rw [h0]; omega), h0, Nat.zero_add]

theorem store_size_after_appends_witness :
    (store.fresh.AppendAll [hello, world]).1.size = 8 * 2 + (5 + (7 + 0)) :=
  store_size_after_appends OsFile.empty store.fresh [hello, world] rfl rfl (by decide)
    (by decide)

/-- After the appends `ReadAt` at offset 0 returns the bytes `Append` produced. -/
theorem store.ReadAt_all_frames (f : OsFile) (s : store) (ps : List (List Byte))
    (b : List Byte) (hd : f.data = []) (hoff : f.off = 0) (hnf : f.NoFault)
    (hs : newStore f = .ok s)
    (hb : b.length = 8 * ps.length + (ps.map List.length).sum) :
    ((s.AppendAll ps).1.ReadAt b 0).2 = (frames ps, b.length, none) := by
  obtain ⟨hS, hc, _⟩ := newStore_sound hnf hd hoff hs
  obtain ⟨hS1, hc1⟩ := store.AppendAll_content ps s hS
  obtain ⟨g, hfl, hg, hS2⟩ := Writer.Flush_sound hS1
  rw [← frames_length] at hb
  have hgd : g.data = frames ps := by
    have hg1 : g.data = (s.AppendAll ps).1.Content := hg
    rw [hg1, hc1, hc, List.nil_append]
  simp only [store.ReadAt, hfl]
  by_cases hp : frames ps = []
  · have hb0 : b = [] := by
      rw [hp] at hb
      exact List.length_eq_zero.mp hb
    subst hb0
    rw [OsFile.ReadAt_nil _ _ (le_refl _), hp]
    rfl
  · have := OsFile.ReadAt_noFault hS2.1 [] (frames ps) [] b (by simp [hgd]) hb hp
    simp only [List.length_nil, Nat.cast_zero] at this
    rw [this, hb]

/-! ## The offset index -/

theorem add64_of_lt {a b : Nat} (h : a + b < 2 ^ 64) : add64 a b = a + b :=
  Nat.mod_eq_of_lt h

theorem mul64_of_lt {a b : Nat} (h : a * b < 2 ^ 64) : mul64 a b = a * b :=
  Nat.mod_eq_of_lt h

theorem entries_length (es : List (Nat × Nat)) : (entries es).length = 12 * es.length := by
  induction es with
  | nil => rfl
  | cons e es ih =>
      simp only [entries, List.length_append, PutUint32_length, PutUint64_length, ih,
        List.length_cons]
      omega

theorem entries_append (xs ys : List (Nat × Nat)) :
    entries (xs ++ ys) = entries xs ++ entries ys := by
  induction xs with
  | nil => rfl
  | cons e es ih =>
      rw [List.cons_append]
      simp only [entries, List.append_assoc]
      rw [ih]

theorem slice_mid (pre mid post : List Byte) :
    slice (pre ++ mid ++ post) pre.length (pre.length + mid.length) = some mid := by
  unfold slice
  rw [if_pos ⟨by omega, by simp only [List.length_append]; omega⟩]
  have h : (pre ++ mid).length = pre.length + mid.length := List.length_append _ _
  rw [← h, List.take_left, List.drop_left]

theorem putSlice_mid (pre mid post bs : List Byte) (h : bs.length = mid.length) :
    putSlice (pre ++ mid ++ post) pre.length (pre.length + mid.length) bs
      = some (pre ++ bs ++ post) := by
  unfold putSlice
  rw [if_pos ⟨by omega, by simp only [List.length_append]; omega, by omega⟩]
  have h1 : (pre ++ mid).length = pre.length + bs.length := by
    rw [List.length_append, h]
  rw [← h1, List.drop_left, List.append_assoc pre mid post, List.take_left]

/-- A write into an index that has room: the twelve bytes after the logical size are
replaced by the encoded entry. -/
theorem index.Write_room (i : index) (off pos : Nat) (pre mid post : List Byte)
    (hm : i.mmap = pre ++ mid ++ post) (hpre : pre.length = i.size) (hmid : mid.length = 12)
    (hlt : i.size + 12 < 2 ^ 64) :
    i.Write off pos = some (⟨i.file, pre ++ PutUint32 off ++ PutUint64 pos ++ post,
      i.size + 12⟩, none) := by
  have hlen : i.mmap.length = i.size + 12 + post.length := by
    rw [hm]
    simp only [List.length_append]
    omega
  have e4 : add64 i.size offWidth = i.size + 4 := add64_of_lt (by simp only [offWidth]; omega)
  have e12 : add64 i.size entWidth = i.size + 12 :=
    add64_of_lt (by simp only [entWidth, offWidth, posWidth]; omega)
  have hfit : ¬ i.mmap.length < i.size + 12 := by omega
  have p1 : putSlice i.mmap i.size (i.size + 4) (PutUint32 off)
      = some (pre ++ PutUint32 off ++ (mid.drop 4 ++ post)) := by
    have := putSlice_mid pre (mid.take 4) (mid.drop 4 ++ post) (PutUint32 off)
      (by simp [PutUint32_length, hmid])
    rw [← List.append_assoc, List.append_assoc pre, List.take_append_drop, ← hm, hpre,
      List.length_take, hmid] at this
    exact this
  have p2 : putSlice (pre ++ PutUint32 off ++ (mid.drop 4 ++ post)) (i.size + 4) (i.size + 12)
      (PutUint64 pos) = some (pre ++ PutUint32 off ++ PutUint64 pos ++ post) := by
    have := putSlice_mid (pre ++ PutUint32 off) (mid.drop 4) post (PutUint64 pos)
      (by simp [PutUint64_length, hmid])
    rw [List.length_append, PutUint32_length, hpre, List.length_drop, hmid,
      List.append_assoc (pre ++ PutUint32 off)] at this
    exact this
  simp only [index.Write, e4, e12, hfit, if_false, p1, p2]

/-- A write into a full index fails with `io.EOF` and changes nothing. -/
theorem index.Write_full (i : index) (off pos : Nat) (hfull : i.mmap.length < i.size + 12)
    (hlt : i.size + 12 < 2 ^ 64) : i.Write off pos = some (i, some .EOF) := by
  have e12 : add64 i.size entWidth = i.size + 12 :=
    add64_of_lt (by simp only [entWidth, offWidth, posWidth]; omega)
  simp only [index.Write, e12, hfull, if_true]


theorem index.WriteAll_room (es : List (Nat × Nat)) :
    ∀ (i : index) (pre mid post : List Byte), i.mmap = pre ++ mid ++ post →
      pre.length = i.size → mid.length = 12 * es.length → i.mmap.length < 2 ^ 64 →
      i.WriteAll es = some (⟨i.file, pre ++ entries es ++ post, i.size + 12 * es.length⟩,
        (List.range es.length).map (fun j => (none, i.size + 12 * (j + 1)))) := by
  induction es with
  | nil =>
      intro i pre mid post hm hpre hmid _
      have : mid = [] := List.length_eq_zero.mp (by simpa using hmid)
      subst this
      simp only [index.WriteAll, entries, List.length_nil, List.range_zero, List.map_nil,
        Nat.mul_zero, Nat.add_zero, ← hm]
  | cons e es ih =>
      intro i pre mid post hm hpre hmid hlt
      simp only [List.length_cons] at hmid
      have hw := index.Write_room i e.1 e.2 pre (mid.take 12) (mid.drop 12 ++ post)
        (by rw [← List.append_assoc, List.append_assoc pre, List.take_append_drop]; exact hm)
        hpre (by rw [List.length_take]; omega)
        (by
          have := congrArg List.length hm
          simp only [List.length_append] at this
          omega)
      have hlen : (pre ++ PutUint32 e.1 ++ PutUint64 e.2 ++ (mid.drop 12 ++ post)).length
          = i.mmap.length := by
        rw [hm]
        simp only [List.length_append, PutUint32_length, PutUint64_length, List.length_drop]
        omega
      have hi := ih ⟨i.file, pre ++ PutUint32 e.1 ++ PutUint64 e.2 ++ (mid.drop 12 ++ post),
        i.size + 12⟩ (pre ++ PutUint32 e.1 ++ PutUint64 e.2) (mid.drop 12) post
        (by simp only [List.append_assoc])
        (by simp only [List.length_append, PutUint32_length, PutUint64_length]; omega)
        (by rw [List.length_drop]; omega) (by rw [hlen]; exact hlt)
      simp only [index.WriteAll, hw]
      rw [hi]
      simp only [List.length_cons, List.range_succ_eq_map, List.map_cons, List.map_map,
        entries, List.append_assoc, Option.some.injEq, Prod.mk.injEq, List.cons.injEq,
        index.mk.injEq, true_and, and_true]
      refine ⟨by omega, ?_⟩
      apply List.map_congr_left
      intro j _
      simp only [Function.comp, Prod.mk.injEq, true_and]
      omega

theorem index.Read_entry (i : index) (inp : Int) (j o q : Nat) (pre post : List Byte)
    (hm : i.mmap = pre ++ (PutUint32 o ++ PutUint64 q) ++ post) (hpre : pre.length = 12 * j)
    (hj : j < 2 ^ 32) (hsz : 12 * j + 12 ≤ i.size)
    (hout : (if inp = -1 then uint32 (sub64 (i.size / entWidth) 1) else uint32 inp) = j) :
    i.Read inp = some (i, o % 2 ^ 32, q % 2 ^ 64, none) := by
  have h0 : ¬ i.size = 0 := by omega
  have hpos : mul64 j entWidth = 12 * j := by
    rw [mul64_of_lt (by simp only [entWidth, offWidth, posWidth]; omega)]
    simp only [entWidth, offWidth, posWidth]
    omega
  have e4 : add64 (12 * j) offWidth = 12 * j + 4 :=
    add64_of_lt (by simp only [offWidth]; omega)
  have e12 : add64 (12 * j) entWidth = 12 * j + 12 :=
    add64_of_lt (by simp only [entWidth, offWidth, posWidth]; omega)
  have hfit : ¬ i.size < 12 * j + 12 := by omega
  have s1 : slice i.mmap (12 * j) (12 * j + 4) = some (PutUint32 o) := by
    have := slice_mid pre (PutUint32 o) (PutUint64 q ++ post)
    rw [PutUint32_length, hpre] at this
    rw [hm, ← this]
    simp only [List.append_assoc]
  have s2 : slice i.mmap (12 * j + 4) (12 * j + 12) = some (PutUint64 q) := by
    have := slice_mid (pre ++ PutUint32 o) (PutUint64 q) post
    rw [List.length_append, PutUint32_length, PutUint64_length, hpre] at this
    rw [hm, ← this]
    simp only [List.append_assoc]
  have u1 : Uint32 (PutUint32 o) = some (o % 2 ^ 32) := by
    have := Uint32_PutUint32 o []
    rwa [List.append_nil] at this
  have u2 : Uint64 (PutUint64 q) = some (q % 2 ^ 64) := by
    have := Uint64_PutUint64 q []
    rwa [List.append_nil] at this
  simp only [index.Read, h0, if_false, hout, hpos, e4, e12, hfit, s1, s2, u1, u2]


theorem index.Write_room_exists (i : index) (off pos : Nat)
    (hroom : i.size + 12 ≤ i.mmap.length) (hlt : i.size + 12 < 2 ^ 64) :
    i.Write off pos = some (⟨i.file, i.mmap.take i.size ++ PutUint32 off ++ PutUint64 pos
      ++ i.mmap.drop (i.size + 12), i.size + 12⟩, none) := by
  have h := index.Write_room i off pos (i.mmap.take i.size) ((i.mmap.drop i.size).take 12)
    (i.mmap.drop (i.size + 12))
    (by
      rw [List.append_assoc, ← List.drop_drop, List.take_append_drop,
        List.take_append_drop])
    (by rw [List.length_take]; omega)
    (by rw [List.length_take, List.length_drop]; omega) hlt
  exact h

theorem OsFile.Stat_ok {f f1 : OsFile} {sz : Nat} (h : f.Stat = (f1, sz, none)) :
    sz = f.data.length ∧ f1.data = f.data := by
  unfold OsFile.Stat at h
  cases hf : f.fault with
  | none =>
      simp only [hf, Prod.mk.injEq, and_true] at h
      exact ⟨h.2.symm, by rw [← h.1]; rfl⟩
  | some k => simp [hf] at h

theorem OsFile.Truncate_ok {f f1 : OsFile} {n : Int} (h : f.Truncate n = (f1, none)) :
    0 ≤ n ∧ f1.data = resize f.data n.toNat := by
  unfold OsFile.Truncate at h
  cases hf : f.fault with
  | none =>
      simp only [hf] at h
      by_cases hn : n < 0
      · simp [hn] at h
      · simp only [hn, if_false, Prod.mk.injEq, and_true] at h
        exact ⟨by omega, by rw [← h]⟩
  | some k => simp [hf] at h

theorem gommapMap_ok {f f1 : OsFile} {m : List Byte} (h : gommapMap f = (f1, m, none)) :
    m = f.data ∧ f.data ≠ [] := by
  unfold gommapMap at h
  cases hf : f.fault with
  | none =>
      simp only [hf] at h
      by_cases hn : f.data.length = 0
      · simp [hn] at h
      · simp only [hn, if_false, Prod.mk.injEq, and_true] at h
        exact ⟨h.2.symm, by simpa [List.length_eq_zero] using hn⟩
  | some k => simp [hf] at h

theorem newIndex_ok {f : OsFile} {c : Config} {idx : index} (h : newIndex f c = .ok idx) :
    idx.size = f.data.length ∧ 0 ≤ int64 c.Segment.MaxIndexBytes ∧
      idx.mmap = resize f.data (int64 c.Segment.MaxIndexBytes).toNat ∧ idx.mmap ≠ [] := by
  unfold newIndex at h
  rcases h1 : f.Stat with ⟨f1, sz, e1⟩
  simp only [h1] at h
  cases e1 with
  | some e => simp at h
  | none =>
      rcases h2 : f1.Truncate (int64 c.Segment.MaxIndexBytes) with ⟨f2, e2⟩
      simp only [h2] at h
      cases e2 with
      | some e => simp at h
      | none =>
          rcases h3 : gommapMap f2 with ⟨f3, m, e3⟩
          simp only [h3] at h
          cases e3 with
          | some e => simp at h
          | none =>
              simp only [Except.ok.injEq] at h
              subst h
              obtain ⟨a1, a2⟩ := OsFile.Stat_ok h1
              obtain ⟨b1, b2⟩ := OsFile.Truncate_ok h2
              obtain ⟨c1, c2⟩ := gommapMap_ok h3
              refine ⟨a1, b1, ?_, ?_⟩
              · simp only [c1, b2, a2]
              · simp only [c1]
                exact c2

theorem int64_nonneg {v : Nat} (hv : v < 2 ^ 64) (h : 0 ≤ int64 v) :
    v < 2 ^ 63 ∧ (int64 v).toNat = v := by
  unfold int64 at h ⊢
  rw [Nat.mod_eq_of_lt hv] at h ⊢
  by_cases hlt : v < 2 ^ 63
  · simp only [hlt, if_true, Int.toNat_ofNat, and_self]
  · simp only [hlt, if_false] at h
    omega

theorem resize_length (d : List Byte) (n : Nat) : (resize d n).length = n := by
  simp only [resize, List.length_append, List.length_take, List.length_replicate]
  omega

/-- Claim C4 (index `Write` fails iff full). For every index state whose logical size does
not wrap the `uint64` sum `size + 12`: `Write` does not panic; it returns `io.EOF` exactly
when the mapped size minus the logical size is less than 12; whenever it returns an error
the error is `io.EOF` and the logical size is unchanged; when it returns no error the
logical size has advanced by exactly 12. -/
theorem index_write_fails_iff_full (i : index) (off pos : Nat) (hsz : i.size + 12 < 2 ^ 64) :
    (∃ r, i.Write off pos = some r) ∧
      ((∃ i1, i.Write off pos = some (i1, some .EOF)) ↔
        (i.mmap.length : Int) - (i.size : Int) < 12) ∧
      (∀ i1 e, i.Write off pos = some (i1, some e) → e = .EOF ∧ i1.size = i.size) ∧
      (∀ i1, i.Write off pos = some (i1, none) → i1.size = i.size + 12) := by
  by_cases hfull : i.mmap.length < i.size + 12
  · have hw := index.Write_full i off pos hfull hsz
    refine ⟨⟨_, hw⟩, ⟨fun _ => by omega, fun _ => ⟨i, hw⟩⟩, ?_, ?_⟩
    · intro i1 e h
      rw [hw] at h
      simp only [Option.some.injEq, Prod.mk.injEq] at h
      exact ⟨h.2.symm, by rw [← h.1]⟩
    · intro i1 h
      rw [hw] at h
      simp at h
  · have hw := index.Write_room_exists i off pos (by omega) hsz
    refine ⟨⟨_, hw⟩, ⟨?_, fun h => by omega⟩, ?_, ?_⟩
    · rintro ⟨i1, h⟩
      rw [hw] at h
      simp at h
    · intro i1 e h
      rw [hw] at h
      simp at h
    · intro i1 h
      rw [hw] at h
      simp only [Option.some.injEq, Prod.mk.injEq, and_true] at h
      rw [← h]

theorem index_write_fails_iff_full_witness :
    (∃ r, (index.mk OsFile.empty (List.replicate 24 0) 24).Write 2 24 = some r) ∧
      ((∃ i1, (index.mk OsFile.empty (List.replicate 24 0) 24).Write 2 24
          = some (i1, some .EOF)) ↔
        (((index.mk OsFile.empty (List.replicate 24 0) 24).mmap.length : Nat) : Int)
          - (((index.mk OsFile.empty (List.replicate 24 0) 24).size : Nat) : Int) < 12) ∧
      (∀ i1 e, (index.mk OsFile.empty (List.replicate 24 0) 24).Write 2 24
          = some (i1, some e) →
        e = .EOF ∧ i1.size = (index.mk OsFile.empty (List.replicate 24 0) 24).size) ∧
      (∀ i1, (index.mk OsFile.empty (List.replicate 24 0) 24).Write 2 24 = some (i1, none) →
        i1.size = (index.mk OsFile.empty (List.replicate 24 0) 24).size + 12) :=
  index_write_fails_iff_full (index.mk OsFile.empty (List.replicate 24 0) 24) 2 24 (by decide)

/-- Claim C6 (index `Read` on an empty index). For every index whose logical size is zero
and every input (an entry number, the sentinel -1 or anything else), `Read` returns
`(0, 0, io.EOF)` and the index, its logical size and its mapped bytes included, is as
before. -/
theorem index_read_empty (i : index) (inp : Int) (h : i.size = 0) :
    i.Read inp = some (i, 0, 0, some .EOF) := by
  simp only [index.Read, h, if_true]

theorem index_read_empty_witness :
    (index.mk OsFile.empty (List.replicate 24 0) 0).Read (-1)
      = some (index.mk OsFile.empty (List.replicate 24 0) 0, 0, 0, some .EOF) :=
  index_read_empty (index.mk OsFile.empty (List.replicate 24 0) 0) (-1) rfl

theorem uint32_lt (v : Int) : uint32 v < 2 ^ 32 := by
  unfold uint32
  omega

theorem uint32_of_nat {n : Nat} (h : n < 2 ^ 32) : uint32 (n : Int) = n := by
  unfold uint32
  omega

/-- Claim C5, amended (index `Read` out of range). For every index that holds exactly `k`
entries (logical size `12 * k`) and every input `i >= k` whose low 32 bits, `i mod 2^32`,
are `>= k` as well (every `i` with `k <= i < 2^32` is such an input), `Read i` returns
`(0, 0, io.EOF)`. -/
theorem index_read_out_of_range (i : index) (k : Nat) (inp : Int) (hk : i.size = 12 * k)
    (hge : (k : Int) ≤ inp) (hlow : (k : Int) ≤ inp % 2 ^ 32) :
    i.Read inp = some (i, 0, 0, some .EOF) := by
  by_cases h0 : i.size = 0
  · simp only [index.Read, h0, if_true]
  · have hne : ¬ inp = -1 := by omega
    have hlt := uint32_lt inp
    have hj : k ≤ uint32 inp := by
      unfold uint32
      omega
    have hpos : mul64 (uint32 inp) entWidth = 12 * uint32 inp := by
      rw [mul64_of_lt (by simp only [entWidth, offWidth, posWidth]; omega)]
      simp only [entWidth, offWidth, posWidth]
      omega
    have e12 : add64 (12 * uint32 inp) entWidth = 12 * uint32 inp + 12 :=
      add64_of_lt (by simp only [entWidth, offWidth, posWidth]; omega)
    have hout : i.size < 12 * uint32 inp + 12 := by omega
    simp only [index.Read, h0, if_false, hne, hpos, e12, hout, if_true]

theorem index_read_out_of_range_witness :
    (index.mk OsFile.empty (PutUint32 7 ++ PutUint64 9) 12).Read 1
      = some (index.mk OsFile.empty (PutUint32 7 ++ PutUint64 9) 12, 0, 0, some .EOF) :=
  index_read_out_of_range (index.mk OsFile.empty (PutUint32 7 ++ PutUint64 9) 12) 1 1 rfl
    (by decide) (by decide)

/-- Claim C5 as stated fails: the index opened on an empty file with `MaxIndexBytes = 12`
holds exactly one entry after `Write 7 9`, the input `2^32` is `>= 1`, and `Read (2^32)`
returns the entry `(7, 9)` with no error instead of `io.EOF`. -/
theorem index_read_out_of_range_counterexample :
    ∃ idx idx1, newIndex OsFile.empty ⟨⟨12⟩⟩ = .ok idx ∧ idx.Write 7 9 = some (idx1, none) ∧
      idx1.size = 12 * 1 ∧ (1 : Int) ≤ 2 ^ 32 ∧ idx1.Read (2 ^ 32) = some (idx1, 7, 9, none) :=
  ⟨_, _, rfl, rfl, rfl, by decide, by decide⟩

theorem index.WriteAll_cap (es : List (Nat × Nat)) :
    ∀ (i : index) (a : Nat), i.size = 12 * a → 12 * a ≤ i.mmap.length →
      i.mmap.length < 2 ^ 63 →
      (i.WriteAll es).map Prod.snd = some ((List.range es.length).map (fun j =>
        if a + j < i.mmap.length / 12 then ((none : Option Error), 12 * (a + j + 1))
        else (some Error.EOF, 12 * (i.mmap.length / 12)))) := by
  induction es with
  | nil =>
      intro i a _ _ _
      rfl
  | cons e es ih =>
      intro i a hsz hle hlt
      by_cases hroom : a < i.mmap.length / 12
      · have hw := index.Write_room_exists i e.1 e.2 (by omega) (by omega)
        have hlen : (i.mmap.take i.size ++ PutUint32 e.1 ++ PutUint64 e.2
            ++ i.mmap.drop (i.size + 12)).length = i.mmap.length := by
          simp only [List.length_append, List.length_take, List.length_drop, PutUint32_length,
            PutUint64_length]
          omega
        have hi := ih ⟨i.file, i.mmap.take i.size ++ PutUint32 e.1 ++ PutUint64 e.2
          ++ i.mmap.drop (i.size + 12), i.size + 12⟩ (a + 1) (by simp only; omega)
          (by simp only [hlen]; omega) (by simp only [hlen]; exact hlt)
        simp only [hlen] at hi
        obtain ⟨⟨i2, rs⟩, h1, h2⟩ := Option.map_eq_some'.mp hi
        simp only at h2
        subst h2
        simp only [index.WriteAll, hw, h1, Option.map_some', List.length_cons,
          List.range_succ_eq_map, List.map_cons, List.map_map, Option.some.injEq,
          List.cons.injEq, Nat.add_zero, hroom, if_true, Prod.mk.injEq, true_and]
        refine ⟨by omega, ?_⟩
        apply List.map_congr_left
        intro j _
        have : a + 1 + j = a + (j + 1) := by omega
        simp only [Function.comp, this, Nat.succ_eq_add_one]
      · have hw := index.Write_full i e.1 e.2 (by omega) (by omega)
        have hi := ih i a hsz hle hlt
        obtain ⟨⟨i2, rs⟩, h1, h2⟩ := Option.map_eq_some'.mp hi
        simp only at h2
        subst h2
        simp only [index.WriteAll, hw, h1, Option.map_some', List.length_cons,
          List.range_succ_eq_map, List.map_cons, List.map_map, Option.some.injEq,
          List.cons.injEq, Nat.add_zero, hroom, if_false, Prod.mk.injEq, true_and]
        refine ⟨by omega, ?_⟩
        apply List.map_congr_left
        intro j _
        have h3 : ¬ a + j < i.mmap.length / 12 := by omega
        have h4 : ¬ a + (j + 1) < i.mmap.length / 12 := by omega
        simp only [Function.comp, h3, h4, if_false, Nat.succ_eq_add_one]

theorem newIndex_empty {f : OsFile} {c : Config} {idx : index} (hd : f.data = [])
    (hM : c.Segment.MaxIndexBytes < 2 ^ 64) (h : newIndex f c = .ok idx) :
    idx.size = 0 ∧ idx.mmap.length = c.Segment.MaxIndexBytes ∧
      c.Segment.MaxIndexBytes < 2 ^ 63 := by
  obtain ⟨h1, h2, h3, _⟩ := newIndex_ok h
  obtain ⟨h4, h5⟩ := int64_nonneg hM h2
  refine ⟨by rw [h1, hd]; rfl, by rw [h3, resize_length, h5], h4⟩

/-- Claim C9 (index capacity). For an index opened on an empty file with
`MaxIndexBytes = M` (a `uint64`), whatever entries are written in order: the `j`-th `Write`
(counting from 1) succeeds and leaves logical size `12 * j` when `j <= M / 12`, and every
later `Write` fails with `io.EOF`, the logical size staying `12 * (M / 12)`; no `Write`
panics. -/
theorem index_capacity (f : OsFile) (c : Config) (idx : index) (es : List (Nat × Nat))
    (hd : f.data = []) (hM : c.Segment.MaxIndexBytes < 2 ^ 64)
    (hopen : newIndex f c = .ok idx) :
    (idx.WriteAll es).map Prod.snd = some ((List.range es.length).map (fun j =>
      if j < c.Segment.MaxIndexBytes / 12 then ((none : Option Error), 12 * (j + 1))
      else (some Error.EOF, 12 * (c.Segment.MaxIndexBytes / 12)))) := by
  obtain ⟨h1, h2, h3⟩ := newIndex_empty hd hM hopen
  have := index.WriteAll_cap es idx 0 (by rw [h1]) (by omega) (by rw [h2]; exact h3)
  simpa only [h2, Nat.zero_add] using this

theorem index_capacity_witness :
    ∃ idx, newIndex OsFile.empty ⟨⟨24⟩⟩ = .ok idx ∧
      (idx.WriteAll [(0, 0), (1, 12), (2, 24)]).map Prod.snd
        = some [(none, 12), (none, 24), (some Error.EOF, 24)] :=
  ⟨_, rfl, index_capacity OsFile.empty ⟨⟨24⟩⟩ _ [(0, 0), (1, 12), (2, 24)] rfl (by decide) rfl⟩

theorem entries_split (es : List (Nat × Nat)) :
    ∀ (j : Nat) (e : Nat × Nat), es[j]? = some e →
      entries es = entries (es.take j) ++ (PutUint32 e.1 ++ PutUint64 e.2)
        ++ entries (es.drop (j + 1)) := by
  induction es with
  | nil =>
      intro j e h
      simp at h
  | cons x xs ih =>
      intro j e h
      cases j with
      | zero =>
          simp only [List.getElem?_cons_zero, Option.some.injEq] at h
          subst h
          simp only [List.take_zero, entries, List.nil_append, Nat.zero_add, List.drop_succ_cons,
            List.drop_zero, List.append_assoc]
      | succ j =>
          simp only [List.getElem?_cons_succ] at h
          simp only [List.take_succ_cons, List.drop_succ_cons, entries, List.append_assoc]
          rw [ih j e h]
          simp only [List.append_assoc]

theorem index.Read_entries (i : index) (es : List (Nat × Nat)) (post : List Byte) (inp : Int)
    (j : Nat) (e : Nat × Nat) (hm : i.mmap = entries es ++ post)
    (hsz : i.size = 12 * es.length) (he : es[j]? = some e) (hj : j < 2 ^ 32)
    (h1 : e.1 < 2 ^ 32) (h2 : e.2 < 2 ^ 64)
    (hout : (if inp = -1 then uint32 (sub64 (i.size / entWidth) 1) else uint32 inp) = j) :
    i.Read inp = some (i, e.1, e.2, none) := by
  have hjl : j < es.length := by
    by_contra hc
    rw [List.getElem?_eq_none (by omega)] at he
    simp at he
  have h := index.Read_entry i inp j e.1 e.2 (entries (es.take j))
    (entries (es.drop (j + 1)) ++ post)
    (by rw [hm, entries_split es j e he]; simp only [List.append_assoc])
    (by rw [entries_length, List.length_take]; omega) hj (by omega) hout
  rw [Nat.mod_eq_of_lt h1, Nat.mod_eq_of_lt h2] at h
  exact h

theorem index.WriteAll_fresh (i : index) (es : List (Nat × Nat)) (h0 : i.size = 0)
    (hroom : 12 * es.length ≤ i.mmap.length) (hlt : i.mmap.length < 2 ^ 64) :
    i.WriteAll es = some (⟨i.file, entries es ++ i.mmap.drop (12 * es.length),
        12 * es.length⟩,
      (List.range es.length).map (fun j => (none, 12 * (j + 1)))) := by
  have h := index.WriteAll_room es i [] (i.mmap.take (12 * es.length))
    (i.mmap.drop (12 * es.length)) (by simp) (by simp [h0])
    (by rw [List.length_take]; omega) hlt
  simpa only [h0, Nat.zero_add, List.nil_append] using h

theorem mem_range_map_none (n : Nat) (g : Nat → Nat) (r : Option Error × Nat)
    (h : r ∈ (List.range n).map (fun j => ((none : Option Error), g j))) : r.1 = none := by
  obtain ⟨j, _, hj⟩ := List.mem_map.mp h
  rw [← hj]

/-- Claim C2, amended (index round-trip). An index is opened on an empty file with
`MaxIndexBytes = M` (a `uint64`) and room for the `k` entries `es`, where
`1 <= k <= 2^32`; the entries have 32-bit offsets and 64-bit positions and are written in
order. Then no `Write` returns an error, `Read i` returns exactly the `i`-th entry with no
error for every `i` in `[0, k)`, and `Read (-1)` returns the last entry with no error. -/
theorem index_roundtrip (f : OsFile) (c : Config) (idx : index) (es : List (Nat × Nat))
    (hd : f.data = []) (hM : c.Segment.MaxIndexBytes < 2 ^ 64)
    (hopen : newIndex f c = .ok idx) (hne : es ≠ [])
    (hroom : 12 * es.length ≤ c.Segment.MaxIndexBytes) (hk : es.length ≤ 2 ^ 32)
    (hrange : ∀ e ∈ es, e.1 < 2 ^ 32 ∧ e.2 < 2 ^ 64) :
    ∃ idx1 rs, idx.WriteAll es = some (idx1, rs) ∧ (∀ r ∈ rs, r.1 = none) ∧
      (∀ (i : Nat) (e : Nat × Nat), es[i]? = some e →
        idx1.Read (i : Int) = some (idx1, e.1, e.2, none)) ∧
      (∀ e : Nat × Nat, es.getLast? = some e →
        idx1.Read (-1) = some (idx1, e.1, e.2, none)) := by
  obtain ⟨h1, h2, h3⟩ := newIndex_empty hd hM hopen
  have hw := index.WriteAll_fresh idx es h1 (by omega) (by omega)
  have hlen : 0 < es.length := List.length_pos.mpr hne
  refine ⟨_, _, hw, fun r hr => mem_range_map_none _ _ r hr, ?_, ?_⟩
  · intro i e he
    have hil : i < es.length := by
      by_contra hc
      rw [List.getElem?_eq_none (by omega)] at he
      simp at he
    have hmem : e ∈ es := List.getElem?_mem he
    have hne1 : ¬ ((i : Int) = -1) := by omega
    exact index.Read_entries _ es _ (i : Int) i e rfl rfl he (by omega) (hrange e hmem).1
      (hrange e hmem).2 (by rw [if_neg hne1]; exact uint32_of_nat (by omega))
  · intro e he
    rw [List.getLast?_eq_getElem?] at he
    have hmem : e ∈ es := List.getElem?_mem he
    refine index.Read_entries _ es _ (-1) (es.length - 1) e rfl rfl he (by omega)
      (hrange e hmem).1 (hrange e hmem).2 ?_
    rw [if_pos rfl]
    have hdiv : 12 * es.length / entWidth = es.length := by
      simp only [entWidth, offWidth, posWidth]
      omega
    have hsub : sub64 es.length 1 = es.length - 1 := by
      unfold sub64
      omega
    simp only [hdiv, hsub]
    have := uint32_of_nat (n := es.length - 1) (by omega)
    exact this

theorem index_roundtrip_witness :
    ∃ idx, newIndex OsFile.empty ⟨⟨24⟩⟩ = .ok idx ∧
      ∃ idx1 rs, idx.WriteAll [(0, 0), (1, 12)] = some (idx1, rs) ∧ (∀ r ∈ rs, r.1 = none) ∧
        (∀ (i : Nat) (e : Nat × Nat), [((0 : Nat), (0 : Nat)), (1, 12)][i]? = some e →
          idx1.Read (i : Int) = some (idx1, e.1, e.2, none)) ∧
        (∀ e : Nat × Nat, [((0 : Nat), (0 : Nat)), (1, 12)].getLast? = some e →
          idx1.Read (-1) = some (idx1, e.1, e.2, none)) :=
  ⟨_, rfl, index_roundtrip OsFile.empty ⟨⟨24⟩⟩ _ [(0, 0), (1, 12)] rfl (by decide) rfl
    (by decide) (by decide) (by decide) (by decide)⟩


theorem index.mk_mmap (f : OsFile) (m : List Byte) (s : Nat) :
    (index.mk f m s).mmap = m := rfl

theorem index.mk_size (f : OsFile) (m : List Byte) (s : Nat) :
    (index.mk f m s).size = s := rfl

theorem newIndex_empty_exists (c : Config) (h0 : 0 < c.Segment.MaxIndexBytes)
    (h1 : c.Segment.MaxIndexBytes < 2 ^ 63) :
    ∃ idx, newIndex OsFile.empty c = .ok idx := by
  have hi : int64 c.Segment.MaxIndexBytes = (c.Segment.MaxIndexBytes : Int) := int64_of_lt h1
  have hn : ¬ ((c.Segment.MaxIndexBytes : Int) < 0) := by omega
  have hl : ¬ (resize ([] : List Byte) c.Segment.MaxIndexBytes).length = 0 := by
    rw [resize_length]
    omega
  simp only [newIndex, OsFile.Stat, OsFile.fault, OsFile.empty, OsFile.call, List.tail_nil,
    OsFile.Truncate, hi, hn, if_false, Int.toNat_ofNat, gommapMap, hl]
  exact ⟨_, rfl⟩

theorem getElem?_cons_replicate (n : Nat) (a b : Nat × Nat) (h : 0 < n) :
    (a :: List.replicate n b)[n]? = some b := by
  obtain ⟨m, rfl⟩ : ∃ m, n = m + 1 := ⟨n - 1, by omega⟩
  rw [List.getElem?_cons_succ, List.getElem?_replicate, if_pos (by omega)]

theorem getLast?_cons_replicate (n : Nat) (a b : Nat × Nat) (h : 0 < n) :
    (a :: List.replicate n b).getLast? = some b := by
  rw [List.getLast?_eq_getElem?, List.length_cons, List.length_replicate, Nat.add_sub_cancel]
  exact getElem?_cons_replicate n a b h

theorem bigEntries_length : bigEntries.length = 2 ^ 32 + 1 := by
  rw [bigEntries, List.length_cons, List.length_replicate]

theorem bigEntries_zero : bigEntries[0]? = some (7, 9) := by
  rw [bigEntries, List.getElem?_cons_zero]

theorem index.Read_big_wrap (i : index) (post : List Byte)
    (hm : i.mmap = entries bigEntries ++ post) (hsz : i.size = 12 * bigEntries.length) :
    i.Read (2 ^ 32) = some (i, 7, 9, none) := by
  refine index.Read_entries _ bigEntries _ (2 ^ 32) 0 (7, 9) hm hsz bigEntries_zero
    (by decide) (by decide) (by decide) ?_
  rw [if_neg (by decide)]
  decide

theorem index.Read_big_last (i : index) (post : List Byte)
    (hm : i.mmap = entries bigEntries ++ post) (hsz : i.size = 12 * bigEntries.length) :
    i.Read (-1) = some (i, 7, 9, none) := by
  have hdiv : 12 * bigEntries.length / entWidth = 2 ^ 32 + 1 := by
    rw [bigEntries_length]
    decide
  refine index.Read_entries _ bigEntries _ (-1) 0 (7, 9) hm hsz bigEntries_zero
    (by decide) (by decide) (by decide) ?_
  rw [if_pos rfl, hsz, hdiv]
  decide

/-- Claim C2 as stated fails for `k > 2^32`. The index opened on an empty file with
`MaxIndexBytes = 12 * (2^32 + 1)` has room for the `2^32 + 1` entries `bigEntries`
(`(7, 9)` followed by `2^32` times `(0, 0)`), and every `Write` succeeds. The entry number
`2^32`, which is also the last one, is `(0, 0)`; but `Read (2^32)` and `Read (-1)` both
return the entry number 0, `(7, 9)`, because the entry number goes through `uint32`. -/
theorem index_roundtrip_counterexample :
    ∃ idx idx1 rs, newIndex OsFile.empty bigConfig = .ok idx ∧
      idx.WriteAll bigEntries = some (idx1, rs) ∧ (∀ r ∈ rs, r.1 = none) ∧
      bigEntries[2 ^ 32]? = some (0, 0) ∧ bigEntries.getLast? = some (0, 0) ∧
      idx1.Read (2 ^ 32) = some (idx1, 7, 9, none) ∧
      idx1.Read (-1) = some (idx1, 7, 9, none) := by
  obtain ⟨idx, hopen⟩ := newIndex_empty_exists bigConfig (by decide) (by decide)
  obtain ⟨h1, h2, _⟩ := newIndex_empty (f := OsFile.empty) rfl (by decide) hopen
  have hroom : 12 * bigEntries.length ≤ idx.mmap.length := by
    rw [h2, bigEntries_length]
    exact Nat.le_refl _
  have hw := index.WriteAll_fresh idx bigEntries h1 hroom (by rw [h2]; decide)
  exact ⟨idx, _, _, hopen, hw, fun r hr => mem_range_map_none _ _ r hr,
    getElem?_cons_replicate _ _ _ (by decide), getLast?_cons_replicate _ _ _ (by decide),
    index.Read_big_wrap _ _ (index.mk_mmap _ _ _) (index.mk_size _ _ _),
    index.Read_big_last _ _ (index.mk_mmap _ _ _) (index.mk_size _ _ _)⟩

theorem mmapSync_ok {f f1 : OsFile} {m : List Byte} (h : mmapSync f m = (f1, none)) :
    f1.data = m ++ f.data.drop m.length := by
  unfold mmapSync at h
  cases hf : f.fault with
  | none =>
      simp only [hf, Prod.mk.injEq, and_true] at h
      rw [← h]
  | some k => simp [hf] at h

theorem OsFile.Sync_ok {f f1 : OsFile} (h : f.Sync = (f1, none)) : f1.data = f.data := by
  unfold OsFile.Sync at h
  cases hf : f.fault with
  | none =>
      simp only [hf, Prod.mk.injEq, and_true] at h
      rw [← h]
      rfl
  | some k => simp [hf] at h

theorem OsFile.Close_data (f : OsFile) : (f.Close).1.data = f.data := by
  unfold OsFile.Close
  cases f.fault <;> rfl

theorem index.Close_ok {i i1 : index} (h : i.Close = (i1, none)) :
    0 ≤ int64 i.size ∧
      i1.file.data = resize (i.mmap ++ i.file.data.drop i.mmap.length) (int64 i.size).toNat := by
  unfold index.Close at h
  rcases h1 : mmapSync i.file i.mmap with ⟨f1, e1⟩
  simp only [h1] at h
  cases e1 with
  | some e => simp at h
  | none =>
      rcases h2 : f1.Sync with ⟨f2, e2⟩
      simp only [h2] at h
      cases e2 with
      | some e => simp at h
      | none =>
          rcases h3 : f2.Truncate (int64 i.size) with ⟨f3, e3⟩
          simp only [h3] at h
          cases e3 with
          | some e => simp at h
          | none =>
              simp only [Prod.mk.injEq] at h
              obtain ⟨a1, a2⟩ := OsFile.Truncate_ok h3
              refine ⟨a1, ?_⟩
              rw [← h.1]
              simp only [OsFile.Close_data, a2, OsFile.Sync_ok h2, mmapSync_ok h1]

theorem slice_congr (m1 m2 : List Byte) (n lo hi : Nat) (hhi : hi ≤ n) (h1 : n ≤ m1.length)
    (h2 : n ≤ m2.length) (h : m1.take n = m2.take n) : slice m1 lo hi = slice m2 lo hi := by
  have e1 : m1.take hi = (m1.take n).take hi := by
    rw [List.take_take, Nat.min_eq_left hhi]
  have e2 : m2.take hi = (m2.take n).take hi := by
    rw [List.take_take, Nat.min_eq_left hhi]
  unfold slice
  by_cases hlo : lo ≤ hi
  · rw [if_pos ⟨hlo, by omega⟩, if_pos ⟨hlo, by omega⟩, e1, e2, h]
  · rw [if_neg (fun hc => hlo hc.1), if_neg (fun hc => hlo hc.1)]

/-- The result of `Read` depends only on the logical size and on the mapped bytes below
the logical size. -/
theorem index.Read_congr (i k : index) (inp : Int) (hsz : i.size = k.size)
    (hi : i.size ≤ i.mmap.length) (hk : k.size ≤ k.mmap.length)
    (hm : i.mmap.take i.size = k.mmap.take k.size) :
    (i.Read inp).map Prod.snd = (k.Read inp).map Prod.snd := by
  rw [← hsz] at hk hm
  unfold index.Read
  rw [← hsz]
  by_cases h0 : i.size = 0
  · simp only [h0, if_true, Option.map_some']
  · simp only [h0, if_false]
    generalize hout : (if inp = -1 then uint32 (sub64 (i.size / entWidth) 1) else uint32 inp)
      = out
    have hlt : out < 2 ^ 32 := by
      rw [← hout]
      split
      · exact uint32_lt _
      · exact uint32_lt _
    have hpos : mul64 out entWidth = 12 * out := by
      rw [mul64_of_lt (by simp only [entWidth, offWidth, posWidth]; omega)]
      simp only [entWidth, offWidth, posWidth]
      omega
    have e4 : add64 (12 * out) offWidth = 12 * out + 4 :=
      add64_of_lt (by simp only [offWidth]; omega)
    have e12 : add64 (12 * out) entWidth = 12 * out + 12 :=
      add64_of_lt (by simp only [entWidth, offWidth, posWidth]; omega)
    simp only [hpos, e4, e12]
    by_cases hfit : i.size < 12 * out + 12
    · simp only [hfit, if_true, Option.map_some']
    · simp only [hfit, if_false]
      rw [slice_congr i.mmap k.mmap i.size (12 * out) (12 * out + 4) (by omega) hi hk hm,
        slice_congr i.mmap k.mmap i.size (12 * out + 4) (12 * out + 12) (by omega) hi hk hm]
      cases slice k.mmap (12 * out) (12 * out + 4) with
      | none => rfl
      | some a =>
          simp only
          cases Uint32 a with
          | none => rfl
          | some o =>
              simp only
              cases slice k.mmap (12 * out + 4) (12 * out + 12) with
              | none => rfl
              | some b =>
                  simp only
                  cases Uint64 b with
                  | none => rfl
                  | some q => rfl

/-- Index close and reopen where the allocation invariant holds. For every open index
whose logical size `s` (a `uint64`) is at most its mapped size: a `Close` that returns no
error leaves the file with exactly `s` bytes, the first `s` bytes of the mapped region; and
whenever `newIndex` on a descriptor of that file, with `MaxIndexBytes >= s` (a `uint64`),
returns an index, that index has logical size `s` (entry count `s / 12`) and its `Read`
returns, for every input, the same `(out, pos, err)` as `Read` did before `Close`. -/
theorem index_close_reopen (i i1 : index) (hlt : i.size < 2 ^ 64)
    (hinv : i.size ≤ i.mmap.length) (hclose : i.Close = (i1, none)) :
    i1.file.data.length = i.size ∧ i1.file.data = i.mmap.take i.size ∧
      ∀ (g : OsFile) (c : Config) (idx2 : index), g.data = i1.file.data →
        c.Segment.MaxIndexBytes < 2 ^ 64 → i.size ≤ c.Segment.MaxIndexBytes →
        newIndex g c = .ok idx2 →
        idx2.size = i.size ∧ idx2.size / entWidth = i.size / entWidth ∧
          ∀ inp : Int, (idx2.Read inp).map Prod.snd = (i.Read inp).map Prod.snd := by
  obtain ⟨h1, h2⟩ := index.Close_ok hclose
  obtain ⟨_, h4⟩ := int64_nonneg hlt h1
  have hdata : i1.file.data = i.mmap.take i.size := by
    rw [h2, h4, resize, List.take_append_of_le_length hinv, List.length_append]
    have : i.size - (i.mmap.length + (List.drop i.mmap.length i.file.data).length) = 0 := by
      omega
    rw [this, List.replicate_zero, List.append_nil]
  have hlen : i1.file.data.length = i.size := by
    rw [hdata, List.length_take]
    omega
  refine ⟨hlen, hdata, ?_⟩
  intro g c idx2 hg hM hge hopen
  obtain ⟨a1, a2, a3, _⟩ := newIndex_ok hopen
  obtain ⟨_, a5⟩ := int64_nonneg hM a2
  have hs : idx2.size = i.size := by rw [a1, hg, hlen]
  have hmm : idx2.mmap = i.mmap.take i.size
      ++ List.replicate (c.Segment.MaxIndexBytes - i.size) 0 := by
    rw [a3, a5, resize, hg, hlen, List.take_of_length_le (by omega), hdata]
  refine ⟨hs, by rw [hs], fun inp => ?_⟩
  apply index.Read_congr idx2 i inp hs
  · rw [hs, hmm, List.length_append, List.length_take, List.length_replicate]
    omega
  · exact hinv
  · rw [hs, hmm, List.take_append_of_le_length (by rw [List.length_take]; omega),
      List.take_take, Nat.min_self]

theorem index_close_reopen_witness :
    ∃ i1, (index.mk OsFile.empty (entries [(0, 0), (1, 12)] ++ List.replicate 12 0) 24).Close
        = (i1, none) ∧
      (i1.file.data.length = 24 ∧
        i1.file.data = (entries [(0, 0), (1, 12)] ++ List.replicate 12 0).take 24 ∧
        ∀ (g : OsFile) (c : Config) (idx2 : index), g.data = i1.file.data →
          c.Segment.MaxIndexBytes < 2 ^ 64 → 24 ≤ c.Segment.MaxIndexBytes →
          newIndex g c = .ok idx2 →
          idx2.size = 24 ∧ idx2.size / entWidth = 24 / entWidth ∧
            ∀ inp : Int, (idx2.Read inp).map Prod.snd
              = ((index.mk OsFile.empty (entries [(0, 0), (1, 12)] ++ List.replicate 12 0)
                  24).Read inp).map Prod.snd) :=
  ⟨_, rfl, index_close_reopen
    (index.mk OsFile.empty (entries [(0, 0), (1, 12)] ++ List.replicate 12 0) 24) _
    (by decide) (by decide) rfl⟩

/-- Claim C7 (index close/reopen round-trip), the code at the failing input. The file
`OsFile.twoEntries` holds two entries (24 bytes); `newIndex` on it with
`MaxIndexBytes = 12` returns, with no error, an open index with logical size 24 and 12
mapped bytes. `Close` on that index returns no error and leaves 24 bytes in the file, which
are not the first 24 bytes of the mapped region (it has 12: the file is padded with zeros);
and after reopening with `MaxIndexBytes = 24` the call `Read 1` returns `(0, 0)` with no
error, where `Read 1` before `Close` was a run-time panic and the entry written was
`(1, 12)`. -/
theorem index_close_reopen_violated :
    ∃ idx i1 idx2, newIndex OsFile.twoEntries ⟨⟨12⟩⟩ = .ok idx ∧ idx.size = 24 ∧
      idx.mmap.length = 12 ∧ idx.Close = (i1, none) ∧
      i1.file.data ≠ idx.mmap.take idx.size ∧
      newIndex i1.file.reopen ⟨⟨24⟩⟩ = .ok idx2 ∧ idx.Read 1 = none ∧
      idx2.Read 1 = some (idx2, 0, 0, none) :=
  ⟨_, _, _, rfl, rfl, rfl, rfl, by decide, rfl, rfl, rfl⟩

/-! ## Encoding, range, safety and invariants of the two components -/

theorem PutUint32_eq_beBytes (v : Nat) : PutUint32 v = beBytes 4 v := by
  simp [PutUint32, beBytes]

theorem PutUint64_eq_beBytes (v : Nat) : PutUint64 v = beBytes 8 v := by
  simp [PutUint64, beBytes]

theorem beBytes_length (n v : Nat) : (beBytes n v).length = n := by
  induction n with
  | zero => rfl
  | succ n ih => simp [beBytes, ih]

/-- Claim C11 (index entry encoding). For every index state with logical size `s` and room
for one entry (`s + 12` within the mapped bytes and within `uint64`), `Write off pos`
succeeds and afterwards the mapped bytes `[s, s+4)` are the four big-endian bytes of `off`
and the mapped bytes `[s+4, s+12)` are the eight big-endian bytes of `pos`; the logical
size has advanced by `entWidth = 12`, the width of one entry. -/
theorem index_entry_encoding (i : index) (off pos : Nat)
    (hroom : i.size + 12 ≤ i.mmap.length) (hlt : i.size + 12 < 2 ^ 64) :
    ∃ i1, i.Write off pos = some (i1, none) ∧
      slice i1.mmap i.size (i.size + 4) = some (beBytes 4 off) ∧
      slice i1.mmap (i.size + 4) (i.size + 12) = some (beBytes 8 pos) ∧
      i1.size = i.size + 12 ∧ entWidth = 12 := by
  have hw := index.Write_room_exists i off pos hroom hlt
  have hpre : (i.mmap.take i.size).length = i.size := by
    rw [List.length_take]
    omega
  refine ⟨_, hw, ?_, ?_, rfl, rfl⟩
  · have := slice_mid (i.mmap.take i.size) (PutUint32 off)
      (PutUint64 pos ++ i.mmap.drop (i.size + 12))
    rw [hpre, PutUint32_length, PutUint32_eq_beBytes] at this
    rw [← this]
    simp only [List.append_assoc, PutUint32_eq_beBytes]
  · have := slice_mid (i.mmap.take i.size ++ PutUint32 off) (PutUint64 pos)
      (i.mmap.drop (i.size + 12))
    rw [List.length_append, hpre, PutUint32_length, PutUint64_length, PutUint64_eq_beBytes,
      Nat.add_assoc] at this
    rw [← this]
    simp only [PutUint64_eq_beBytes]

theorem index_entry_encoding_witness :
    ∃ i1, (index.mk OsFile.empty (List.replicate 24 0) 12).Write 1 12 = some (i1, none) ∧
      slice i1.mmap 12 (12 + 4) = some (beBytes 4 1) ∧
      slice i1.mmap (12 + 4) (12 + 12) = some (beBytes 8 12) ∧
      i1.size = 12 + 12 ∧ entWidth = 12 :=
  index_entry_encoding (index.mk OsFile.empty (List.replicate 24 0) 12) 1 12 (by decide)
    (by decide)

theorem uint32_emod (v : Int) : uint32 (v % 2 ^ 32) = uint32 v := by
  unfold uint32
  rw [Int.emod_emod_of_dvd v (dvd_refl _)]

/-- Claim C18 (index `Read` keeps the low 32 bits of its argument). For every index state
and every input other than the sentinel -1, `Read` returns exactly what it returns on the
input reduced modulo `2^32`. -/
theorem index_read_low_bits (i : index) (inp : Int) (h : inp ≠ -1) :
    i.Read inp = i.Read (inp % 2 ^ 32) := by
  have h2 : ¬ (inp % 2 ^ 32 = -1) := by omega
  simp only [index.Read, h, h2, if_false, uint32_emod]

theorem index_read_low_bits_witness :
    (index.mk OsFile.empty (PutUint32 7 ++ PutUint64 9) 12).Read (2 ^ 32)
      = (index.mk OsFile.empty (PutUint32 7 ++ PutUint64 9) 12).Read (2 ^ 32 % 2 ^ 32) :=
  index_read_low_bits (index.mk OsFile.empty (PutUint32 7 ++ PutUint64 9) 12) (2 ^ 32)
    (by decide)

/-- Claim C20 (a failed `Append` leaves the size counter unchanged). For every store state
and payload, when the write of the length prefix to the buffered writer fails with `e`, or
that write succeeds and the write of the payload fails with `e`, `Append` returns
`(0, 0, e)` and the size counter of the store is the same as before the call. -/
theorem append_failure_keeps_size (s : store) (p : List Byte) (e : Error)
    (h : (binaryWrite s.buf s.File (p.length % 2 ^ 64)).2.2 = some e ∨
      ((binaryWrite s.buf s.File (p.length % 2 ^ 64)).2.2 = none ∧
        ((binaryWrite s.buf s.File (p.length % 2 ^ 64)).1.Write
          (binaryWrite s.buf s.File (p.length % 2 ^ 64)).2.1 p).2.2.2 = some e)) :
    (s.Append p).2 = (0, 0, some e) ∧ (s.Append p).1.size = s.size := by
  unfold store.Append
  rcases h1 : binaryWrite s.buf s.File (p.length % 2 ^ 64) with ⟨b1, f1, e1⟩
  rw [h1] at h
  simp only at h ⊢
  rcases h with h | ⟨h, h'⟩
  · subst h
    exact ⟨rfl, rfl⟩
  · subst h
    rcases h2 : b1.Write f1 p with ⟨b2, f2, w, e2⟩
    rw [h2] at h'
    simp only at h'
    subst h'
    simp only [h2, and_self]

theorem append_failure_keeps_size_witness :
    ((store.mk OsFile.empty ⟨some .Errno, [], 4096⟩ 13).Append hello).2 = (0, 0, some .Errno) ∧
      ((store.mk OsFile.empty ⟨some .Errno, [], 4096⟩ 13).Append hello).1.size
        = (store.mk OsFile.empty ⟨some .Errno, [], 4096⟩ 13).size :=
  append_failure_keeps_size (store.mk OsFile.empty ⟨some .Errno, [], 4096⟩ 13) hello .Errno
    (Or.inl (by decide))

theorem Writer.Flush_ok_data {b b1 : Writer} {f f1 : OsFile} (h : b.Flush f = (b1, f1, none)) :
    f1.data = writeAt f.data f.off b.buf := by
  unfold Writer.Flush at h
  cases hb : b.err with
  | some e => simp [hb] at h
  | none =>
      simp only [hb] at h
      by_cases h0 : b.buf.length = 0
      · simp only [h0, if_true, Prod.mk.injEq, and_true] at h
        rw [← h.2, writeAt, if_pos h0]
      · simp only [h0, if_false, OsFile.Write] at h
        cases hf : f.fault with
        | some k => simp [hf] at h
        | none =>
            simp only [hf, lt_irrefl, if_false, Prod.mk.injEq, and_true] at h
            rw [← h.2]

theorem OsFile.ReadAt_short (f : OsFile) (b : List Byte) (off : Nat) (hb : b.length ≠ 0)
    (hoff : off < 2 ^ 64) (h : f.data.length < off + b.length) :
    (f.ReadAt b (int64 off)).2.2.2 ≠ none := by
  unfold OsFile.ReadAt
  by_cases hneg : int64 off < 0
  · simp [hneg]
  · have hp := int64_nonneg hoff (by omega)
    simp only [hneg, if_false, hb, hp.2]
    cases hf : f.fault with
    | some k => simp
    | none =>
        have hl : ¬ (List.take b.length (List.drop off f.data)).length = b.length := by
          rw [List.length_take, List.length_drop]
          omega
        simp only [hl, if_false]
        simp

/-- Claim C12 (store `Read` out of range). For every store state and every position `pos`
(a `uint64`) such that `pos + 8` exceeds the length of the store's content, that is of the
file once the buffered bytes are flushed into it, `Read pos` does not panic and returns no
payload and an error. -/
theorem store_read_out_of_range (s : store) (pos : Nat) (hpos : pos < 2 ^ 64)
    (h : s.Flushed.length < pos + 8) :
    ∃ s1 e, s.Read pos = some (s1, none, some e) := by
  unfold store.Read
  rcases h1 : s.buf.Flush s.File with ⟨b1, f1, e1⟩
  cases e1 with
  | some e => exact ⟨_, e, rfl⟩
  | none =>
      have hd := Writer.Flush_ok_data h1
      have hr := OsFile.ReadAt_short f1 (List.replicate lenWidth 0) pos
        (by simp [lenWidth]) hpos
        (by rw [hd]; simpa [lenWidth, store.Flushed] using h)
      rcases h2 : f1.ReadAt (List.replicate lenWidth 0) (int64 pos) with ⟨f2, sz, n, e2⟩
      rw [h2] at hr
      cases e2 with
      | none => exact absurd rfl hr
      | some e =>
          simp only [h2]
          exact ⟨_, e, rfl⟩

theorem store_read_out_of_range_witness :
    ∃ s1 e, (store.fresh.AppendAll [hello, world]).1.Read 21 = some (s1, none, some e) :=
  store_read_out_of_range (store.fresh.AppendAll [hello, world]).1 21 (by decide) (by decide)

/-- The panic of `Read`: after `"hello"` and `"world!!"`, the eight bytes at position 20
decode to a length beyond `maxAlloc`, and `make` panics. -/
theorem store.Read_panics_at_20 :
    (store.fresh.AppendAll [hello, world]).1.Read 20 = none := by
  decide

theorem slice_some (m : List Byte) (lo hi : Nat) (h1 : lo ≤ hi) (h2 : hi ≤ m.length) :
    ∃ l, slice m lo hi = some l ∧ l.length = hi - lo := by
  refine ⟨(m.take hi).drop lo, by rw [slice, if_pos ⟨h1, h2⟩], ?_⟩
  rw [List.length_drop, List.length_take]
  omega

theorem Uint32_some {l : List Byte} (h : l.length = 4) : ∃ v, Uint32 l = some v := by
  match l, h with
  | [_, _, _, _], _ => exact ⟨_, rfl⟩

theorem Uint64_some {l : List Byte} (h : l.length = 8) : ∃ v, Uint64 l = some v := by
  match l, h with
  | [_, _, _, _, _, _, _, _], _ => exact ⟨_, rfl⟩

theorem index.Read_total (i : index) (inp : Int) (hinv : i.size ≤ i.mmap.length) :
    ∃ r, i.Read inp = some r := by
  unfold index.Read
  by_cases h0 : i.size = 0
  · simp only [h0, if_true]
    exact ⟨_, rfl⟩
  · simp only [h0, if_false]
    generalize hout : (if inp = -1 then uint32 (sub64 (i.size / entWidth) 1) else uint32 inp)
      = out
    have hlt : out < 2 ^ 32 := by
      rw [← hout]
      split
      · exact uint32_lt _
      · exact uint32_lt _
    have hpos : mul64 out entWidth = 12 * out := by
      rw [mul64_of_lt (by simp only [entWidth, offWidth, posWidth]; omega)]
      simp only [entWidth, offWidth, posWidth]
      omega
    have e4 : add64 (12 * out) offWidth = 12 * out + 4 :=
      add64_of_lt (by simp only [offWidth]; omega)
    have e12 : add64 (12 * out) entWidth = 12 * out + 12 :=
      add64_of_lt (by simp only [entWidth, offWidth, posWidth]; omega)
    simp only [hpos, e4, e12]
    by_cases hfit : i.size < 12 * out + 12
    · simp only [hfit, if_true]
      exact ⟨_, rfl⟩
    · simp only [hfit, if_false]
      obtain ⟨a, ha, hla⟩ := slice_some i.mmap (12 * out) (12 * out + 4) (by omega) (by omega)
      obtain ⟨c, hc, hlc⟩ := slice_some i.mmap (12 * out + 4) (12 * out + 12) (by omega)
        (by omega)
      obtain ⟨o, ho⟩ := Uint32_some (l := a) (by omega)
      obtain ⟨q, hq⟩ := Uint64_some (l := c) (by omega)
      simp only [ha, ho, hc, hq]
      exact ⟨_, rfl⟩

theorem index.Read_ok_range (i : index) (inp : Int) (i1 : index) (o q : Nat)
    (h : i.Read inp = some (i1, o, q, none)) :
    (if inp = -1 then uint32 (sub64 (i.size / entWidth) 1) else uint32 inp) * entWidth
      + entWidth ≤ i.size := by
  unfold index.Read at h
  by_cases h0 : i.size = 0
  · simp [h0] at h
  · simp only [h0, if_false] at h
    generalize hout : (if inp = -1 then uint32 (sub64 (i.size / entWidth) 1) else uint32 inp)
      = out at h ⊢
    have hlt : out < 2 ^ 32 := by
      rw [← hout]
      split
      · exact uint32_lt _
      · exact uint32_lt _
    have hpos : mul64 out entWidth = out * entWidth :=
      mul64_of_lt (by simp only [entWidth, offWidth, posWidth]; omega)
    have e12 : add64 (out * entWidth) entWidth = out * entWidth + entWidth :=
      add64_of_lt (by simp only [entWidth, offWidth, posWidth]; omega)
    rw [hpos, e12] at h
    by_cases hfit : i.size < out * entWidth + entWidth
    · simp [hfit] at h
    · omega

/-- Claim C19 (index bounds safety). For every index state whose logical size is at most the
length of the mapped region (a Go slice length, below `2^63`): `Read` with any input and
`Write` with any arguments return a result, that is they never slice the mapped region out
of bounds; the twelve bytes a successful `Read` or `Write` accesses lie below the end of the
mapped region; and the unsigned arithmetic does not wrap: `out * 12 + 12` is below `2^64`
for every 32-bit entry number, `size + 12` is below `2^64`, and the subtraction
`size / 12 - 1` of the sentinel case is done on a quotient of at least 1 whenever bytes are
accessed. -/
theorem index_bounds_safety (i : index) (hinv : i.size ≤ i.mmap.length)
    (hlen : i.mmap.length < 2 ^ 63) :
    (∀ inp : Int, ∃ r, i.Read inp = some r) ∧
      (∀ off pos : Nat, ∃ r, i.Write off pos = some r) ∧
      (∀ (inp : Int) (i1 : index) (o q : Nat), i.Read inp = some (i1, o, q, none) →
        (if inp = -1 then uint32 (sub64 (i.size / entWidth) 1) else uint32 inp) * entWidth
          + entWidth ≤ i.mmap.length ∧ (inp = -1 → 1 ≤ i.size / entWidth)) ∧
      (∀ (off pos : Nat) (i1 : index), i.Write off pos = some (i1, none) →
        i.size + entWidth ≤ i.mmap.length) ∧
      (∀ out : Nat, out < 2 ^ 32 → out * entWidth + entWidth < 2 ^ 64) ∧
      i.size + entWidth < 2 ^ 64 := by
  have he : entWidth = 12 := rfl
  refine ⟨fun inp => index.Read_total i inp hinv, ?_, ?_, ?_, ?_, by rw [he]; omega⟩
  · intro off pos
    by_cases hfull : i.mmap.length < i.size + 12
    · exact ⟨_, index.Write_full i off pos hfull (by omega)⟩
    · exact ⟨_, index.Write_room_exists i off pos (by omega) (by omega)⟩
  · intro inp i1 o q h
    have hr := index.Read_ok_range i inp i1 o q h
    refine ⟨by omega, fun _ => ?_⟩
    rw [he] at hr ⊢
    omega
  · intro off pos i1 h
    by_cases hfull : i.mmap.length < i.size + 12
    · rw [index.Write_full i off pos hfull (by omega)] at h
      simp at h
    · rw [he]
      omega
  · intro out hout
    rw [he]
    omega

theorem index_bounds_safety_witness :
    (∀ inp : Int, ∃ r, (index.mk OsFile.empty (List.replicate 24 0) 12).Read inp = some r) ∧
      (∀ off pos : Nat,
        ∃ r, (index.mk OsFile.empty (List.replicate 24 0) 12).Write off pos = some r) ∧
      (∀ (inp : Int) (i1 : index) (o q : Nat),
        (index.mk OsFile.empty (List.replicate 24 0) 12).Read inp = some (i1, o, q, none) →
        (if inp = -1 then
            uint32 (sub64 ((index.mk OsFile.empty (List.replicate 24 0) 12).size / entWidth) 1)
          else uint32 inp) * entWidth + entWidth
          ≤ (index.mk OsFile.empty (List.replicate 24 0) 12).mmap.length ∧
          (inp = -1 → 1 ≤ (index.mk OsFile.empty (List.replicate 24 0) 12).size / entWidth)) ∧
      (∀ (off pos : Nat) (i1 : index),
        (index.mk OsFile.empty (List.replicate 24 0) 12).Write off pos = some (i1, none) →
        (index.mk OsFile.empty (List.replicate 24 0) 12).size + entWidth
          ≤ (index.mk OsFile.empty (List.replicate 24 0) 12).mmap.length) ∧
      (∀ out : Nat, out < 2 ^ 32 → out * entWidth + entWidth < 2 ^ 64) ∧
      (index.mk OsFile.empty (List.replicate 24 0) 12).size + entWidth < 2 ^ 64 :=
  index_bounds_safety (index.mk OsFile.empty (List.replicate 24 0) 12) (by decide) (by decide)

theorem index.Read_below (i k : index) (inp : Int) (n : Nat) (hne : inp ≠ -1)
    (hout : 12 * uint32 inp + 12 ≤ n) (hi : n ≤ i.size) (hk : n ≤ k.size)
    (hil : n ≤ i.mmap.length) (hkl : n ≤ k.mmap.length)
    (hm : i.mmap.take n = k.mmap.take n) :
    (i.Read inp).map Prod.snd = (k.Read inp).map Prod.snd := by
  have hlt := uint32_lt inp
  have hi0 : ¬ i.size = 0 := by omega
  have hk0 : ¬ k.size = 0 := by omega
  have hpos : mul64 (uint32 inp) entWidth = 12 * uint32 inp := by
    rw [mul64_of_lt (by simp only [entWidth, offWidth, posWidth]; omega)]
    simp only [entWidth, offWidth, posWidth]
    omega
  have e4 : add64 (12 * uint32 inp) offWidth = 12 * uint32 inp + 4 :=
    add64_of_lt (by simp only [offWidth]; omega)
  have e12 : add64 (12 * uint32 inp) entWidth = 12 * uint32 inp + 12 :=
    add64_of_lt (by simp only [entWidth, offWidth, posWidth]; omega)
  have hfi : ¬ i.size < 12 * uint32 inp + 12 := by omega
  have hfk : ¬ k.size < 12 * uint32 inp + 12 := by omega
  simp only [index.Read, hi0, hk0, hne, if_false, hpos, e4, e12, hfi, hfk]
  rw [slice_congr i.mmap k.mmap n (12 * uint32 inp) (12 * uint32 inp + 4) (by omega) hil hkl hm,
    slice_congr i.mmap k.mmap n (12 * uint32 inp + 4) (12 * uint32 inp + 12) (by omega) hil hkl
      hm]
  cases slice k.mmap (12 * uint32 inp) (12 * uint32 inp + 4) with
  | none => rfl
  | some a =>
      simp only
      cases Uint32 a with
      | none => rfl
      | some o =>
          simp only
          cases slice k.mmap (12 * uint32 inp + 4) (12 * uint32 inp + 12) with
          | none => rfl
          | some b =>
              simp only
              cases Uint64 b with
              | none => rfl
              | some q => rfl

/-- Claim C16 (index `Write` is append-only). For every index state with logical size `s`
(with `s + 12` within `uint64`) and every `Write` that returns: the mapped region keeps its
length, every byte before `s` and every byte at or after `s + 12` is unchanged, a `Write`
that returns an error changes no byte at all, and `Read j` returns the same
`(out, pos, err)` before and after the `Write` for every `j < s / 12`. -/
theorem index_write_append_only (i i1 : index) (off pos : Nat) (e : Option Error)
    (hsz : i.size + 12 < 2 ^ 64) (hw : i.Write off pos = some (i1, e)) :
    i1.mmap.length = i.mmap.length ∧ i1.mmap.take i.size = i.mmap.take i.size ∧
      i1.mmap.drop (i.size + 12) = i.mmap.drop (i.size + 12) ∧
      (e ≠ none → i1.mmap = i.mmap) ∧
      ∀ j : Nat, j < i.size / 12 →
        (i1.Read (j : Int)).map Prod.snd = (i.Read (j : Int)).map Prod.snd := by
  by_cases hfull : i.mmap.length < i.size + 12
  · rw [index.Write_full i off pos hfull hsz] at hw
    simp only [Option.some.injEq, Prod.mk.injEq] at hw
    obtain ⟨h1, _⟩ := hw
    subst h1
    exact ⟨rfl, rfl, rfl, fun _ => rfl, fun _ _ => rfl⟩
  · rw [index.Write_room_exists i off pos (by omega) hsz] at hw
    simp only [Option.some.injEq, Prod.mk.injEq] at hw
    obtain ⟨h1, h2⟩ := hw
    subst h1 h2
    have hpre : (i.mmap.take i.size).length = i.size := by
      rw [List.length_take]
      omega
    have htake : (i.mmap.take i.size ++ PutUint32 off ++ PutUint64 pos
        ++ i.mmap.drop (i.size + 12)).take i.size = i.mmap.take i.size := by
      rw [List.append_assoc, List.append_assoc, List.take_left' hpre]
    have hlen : (i.mmap.take i.size ++ PutUint32 off ++ PutUint64 pos
        ++ i.mmap.drop (i.size + 12)).length = i.mmap.length := by
      simp only [List.length_append, hpre, PutUint32_length, PutUint64_length, List.length_drop]
      omega
    refine ⟨hlen, htake, ?_, fun h => absurd rfl h, ?_⟩
    · have hl : (i.mmap.take i.size ++ PutUint32 off ++ PutUint64 pos).length = i.size + 12 := by
        simp only [List.length_append, hpre, PutUint32_length, PutUint64_length]
      rw [List.drop_left' hl]
    · intro j hj
      have hu : uint32 (j : Int) ≤ j := by
        unfold uint32
        omega
      exact index.Read_below _ i (j : Int) i.size (by omega) (by omega) (by simp only; omega)
        (le_refl _) (by rw [hlen]; omega) (by omega) htake

theorem index_write_append_only_witness :
    ∃ i1, (index.mk OsFile.empty (entries [(0, 0)] ++ List.replicate 12 0) 12).Write 1 12
        = some (i1, none) ∧
      (i1.mmap.length = (entries [(0, 0)] ++ List.replicate 12 0).length ∧
        i1.mmap.take 12 = (entries [(0, 0)] ++ List.replicate 12 0).take 12 ∧
        i1.mmap.drop (12 + 12) = (entries [(0, 0)] ++ List.replicate 12 0).drop (12 + 12) ∧
        ((none : Option Error) ≠ none →
          i1.mmap = entries [(0, 0)] ++ List.replicate 12 0) ∧
        ∀ j : Nat, j < 12 / 12 →
          (i1.Read (j : Int)).map Prod.snd
            = ((index.mk OsFile.empty (entries [(0, 0)] ++ List.replicate 12 0) 12).Read
                (j : Int)).map Prod.snd) :=
  ⟨_, rfl, index_write_append_only
    (index.mk OsFile.empty (entries [(0, 0)] ++ List.replicate 12 0) 12) _ 1 12 none
    (by decide) rfl⟩

/-- Claim C17 (order of the steps of index `Close`). The four steps are the sync of the
mapping, the fsync of the file, the truncation to the logical size and the close of the
file, and the `k`-th of them fails when the `k`-th coming system call of the schedule
fails (the truncation also when the size is negative as an `int64`). In every case the
trace of the file grows by the steps made, in that order, up to and including the first
failing one; `Close` returns the error of that step; and the bytes of the file are
unchanged when the sync of the mapping failed, synced but not truncated when the fsync or
the truncation failed, and truncated to the logical size only when the first three steps
succeeded, after which the result of `Close` is the result of closing the file. -/
theorem index_close_order (i : index) :
    (i.file.faults.getD 0 none ≠ none →
      i.Close.2 = some .Errno ∧ i.Close.1.file.trace = i.file.trace ++ [.msync] ∧
        i.Close.1.file.data = i.file.data) ∧
    (i.file.faults.getD 0 none = none → i.file.faults.getD 1 none ≠ none →
      i.Close.2 = some .Errno ∧ i.Close.1.file.trace = i.file.trace ++ [.msync, .fsync] ∧
        i.Close.1.file.data = i.mmap ++ i.file.data.drop i.mmap.length) ∧
    (i.file.faults.getD 0 none = none → i.file.faults.getD 1 none = none →
      i.file.faults.getD 2 none ≠ none →
      i.Close.2 = some .Errno ∧
        i.Close.1.file.trace = i.file.trace ++ [.msync, .fsync, .truncate (int64 i.size)] ∧
        i.Close.1.file.data = i.mmap ++ i.file.data.drop i.mmap.length) ∧
    (i.file.faults.getD 0 none = none → i.file.faults.getD 1 none = none →
      i.file.faults.getD 2 none = none → int64 i.size < 0 →
      i.Close.2 = some .EINVAL ∧
        i.Close.1.file.trace = i.file.trace ++ [.msync, .fsync, .truncate (int64 i.size)] ∧
        i.Close.1.file.data = i.mmap ++ i.file.data.drop i.mmap.length) ∧
    (i.file.faults.getD 0 none = none → i.file.faults.getD 1 none = none →
      i.file.faults.getD 2 none = none → 0 ≤ int64 i.size →
      i.Close.2 = (if i.file.faults.getD 3 none = none then none else some .Errno) ∧
        i.Close.1.file.trace
          = i.file.trace ++ [.msync, .fsync, .truncate (int64 i.size), .close] ∧
        i.Close.1.file.data
          = resize (i.mmap ++ i.file.data.drop i.mmap.length) (int64 i.size).toNat) := by
  obtain ⟨⟨data, off, faults, trace⟩, mmap, size⟩ := i
  by_cases hneg : int64 size < 0
  · have hn2 : ¬ (0 ≤ int64 size) := by omega
    rcases faults with _ | ⟨a, _ | ⟨b, _ | ⟨c, _ | ⟨d, rest⟩⟩⟩⟩ <;>
      (try cases a) <;> (try cases b) <;> (try cases c) <;> (try cases d) <;>
      simp [index.Close, mmapSync, OsFile.Sync, OsFile.Truncate, OsFile.Close, OsFile.fault,
        OsFile.call, hneg, hn2]
  · have hn2 : 0 ≤ int64 size := by omega
    rcases faults with _ | ⟨a, _ | ⟨b, _ | ⟨c, _ | ⟨d, rest⟩⟩⟩⟩ <;>
      (try cases a) <;> (try cases b) <;> (try cases c) <;> (try cases d) <;>
      simp [index.Close, mmapSync, OsFile.Sync, OsFile.Truncate, OsFile.Close, OsFile.fault,
        OsFile.call, hneg, hn2]

/-- The allocation invariant is kept by `Write`. -/
theorem index.Write_keeps_alloc (i i1 : index) (off pos : Nat) (e : Option Error)
    (hinv : i.size ≤ i.mmap.length) (hlen : i.mmap.length < 2 ^ 63)
    (hw : i.Write off pos = some (i1, e)) :
    i1.size ≤ i1.mmap.length ∧ i1.mmap.length = i.mmap.length := by
  by_cases hfull : i.mmap.length < i.size + 12
  · rw [index.Write_full i off pos hfull (by omega)] at hw
    simp only [Option.some.injEq, Prod.mk.injEq] at hw
    rw [← hw.1]
    exact ⟨hinv, rfl⟩
  · rw [index.Write_room_exists i off pos (by omega) (by omega)] at hw
    simp only [Option.some.injEq, Prod.mk.injEq] at hw
    rw [← hw.1]
    simp only [List.length_append, List.length_take, List.length_drop, PutUint32_length,
      PutUint64_length]
    omega

/-- Claim C13 (index allocation invariant), the code at the failing input. The file
`OsFile.twoEntries` exists and holds 24 bytes; `newIndex` on it with `MaxIndexBytes = 12`
returns an index, with no error, whose mapped size is 12 and whose logical size is 24, so
the mapped size is less than the logical size; on that index `Read 1` is a run-time
panic. -/
theorem index_allocation_violated :
    ∃ idx, newIndex OsFile.twoEntries ⟨⟨12⟩⟩ = .ok idx ∧ idx.mmap.length = 12 ∧
      idx.size = 24 ∧ ¬ (idx.size ≤ idx.mmap.length) ∧ idx.Read 1 = none :=
  ⟨_, rfl, rfl, rfl, by decide, rfl⟩

theorem OsFile.ReadAt_frame (f : OsFile) (b : List Byte) (off : Int) :
    (f.ReadAt b off).1.data = f.data ∧ (f.ReadAt b off).1.off = f.off ∧
      (f.NoFault → (f.ReadAt b off).1.NoFault) := by
  unfold OsFile.ReadAt
  by_cases h1 : off < 0
  · simp only [h1, if_true]
    exact ⟨by trivial, by trivial, id⟩
  · by_cases h2 : b.length = 0
    · simp only [h1, h2, if_false, if_true]
      exact ⟨by trivial, by trivial, id⟩
    · simp only [h1, h2, if_false]
      cases f.fault with
      | some k => exact ⟨rfl, rfl, fun h => noFault_call h _⟩
      | none =>
          simp only
          split
          · exact ⟨rfl, rfl, fun h => noFault_call h _⟩
          · exact ⟨rfl, rfl, fun h => noFault_call h _⟩

theorem store.Read_keeps (s : store) (pos : Nat) (h : Sound s.buf s.File)
    (r : store × Option (List Byte) × Option Error) (hr : s.Read pos = some r) :
    Sound r.1.buf r.1.File ∧ r.1.Content = s.Content ∧ r.1.size = s.size := by
  obtain ⟨g, hfl, hd, hS⟩ := Writer.Flush_sound h
  have hc : g.data ++ ([] : List Byte) = s.Content := by
    rw [List.append_nil, hd]
    rfl
  unfold store.Read at hr
  simp only [hfl] at hr
  have a := OsFile.ReadAt_frame g (List.replicate lenWidth 0) (int64 pos)
  rcases h1 : g.ReadAt (List.replicate lenWidth 0) (int64 pos) with ⟨f2, sz, n, e2⟩
  rw [h1] at a hr
  simp only at a
  have hS2 : Sound (⟨none, [], s.buf.cap⟩ : Writer) f2 :=
    ⟨a.2.2 hS.1, rfl, by rw [a.2.1, a.1]; exact hS.2.2⟩
  have hb : ({ s.buf with buf := [] } : Writer) = ⟨none, [], s.buf.cap⟩ := by
    rw [← h.2.1]
  rw [hb] at hS hr
  cases e2 with
  | some e =>
      simp only [Option.some.injEq] at hr
      subst hr
      exact ⟨hS2, by simp only [store.Content, a.1]; exact hc, by trivial⟩
  | none =>
      simp only at hr
      cases hmk : makeBytes ((Uint64 sz).getD 0) with
      | none => simp [hmk] at hr
      | some b0 =>
          simp only [hmk] at hr
          have c := OsFile.ReadAt_frame f2 b0 (int64 (add64 pos lenWidth))
          rcases h2 : f2.ReadAt b0 (int64 (add64 pos lenWidth)) with ⟨f3, bb, n3, e3⟩
          rw [h2] at c hr
          simp only at c
          have hS3 : Sound (⟨none, [], s.buf.cap⟩ : Writer) f3 :=
            ⟨c.2.2 hS2.1, rfl, by rw [c.2.1, c.1]; exact hS2.2.2⟩
          cases e3 with
          | some e =>
              simp only [Option.some.injEq] at hr
              subst hr
              exact ⟨hS3, by simp only [store.Content, c.1, a.1]; exact hc, by trivial⟩
          | none =>
              simp only [Option.some.injEq] at hr
              subst hr
              exact ⟨hS3, by simp only [store.Content, c.1, a.1]; exact hc, by trivial⟩

theorem store.ReadAt_keeps (s : store) (p : List Byte) (off : Int) (h : Sound s.buf s.File) :
    Sound (s.ReadAt p off).1.buf (s.ReadAt p off).1.File ∧
      (s.ReadAt p off).1.Content = s.Content ∧ (s.ReadAt p off).1.size = s.size := by
  obtain ⟨g, hfl, hd, hS⟩ := Writer.Flush_sound h
  have hc : g.data ++ ([] : List Byte) = s.Content := by
    rw [List.append_nil, hd]
    rfl
  unfold store.ReadAt
  simp only [hfl]
  have a := OsFile.ReadAt_frame g p off
  rcases h1 : g.ReadAt p off with ⟨f2, q, n, e2⟩
  rw [h1] at a
  simp only at a ⊢
  exact ⟨⟨a.2.2 hS.1, hS.2.1, by rw [a.2.1, a.1]; exact hS.2.2⟩,
    by simp only [store.Content, a.1]; exact hc, by trivial⟩

/-- `Read` never changes the size counter, whatever the state of the store. -/
theorem store.Read_size (s : store) (pos : Nat)
    (r : store × Option (List Byte) × Option Error) (hr : s.Read pos = some r) :
    r.1.size = s.size := by
  unfold store.Read at hr
  rcases h1 : s.buf.Flush s.File with ⟨b1, f1, e1⟩
  rw [h1] at hr
  cases e1 with
  | some e =>
      simp only [Option.some.injEq] at hr
      rw [← hr]
  | none =>
      simp only at hr
      rcases h2 : f1.ReadAt (List.replicate lenWidth 0) (int64 pos) with ⟨f2, sz, n, e2⟩
      rw [h2] at hr
      cases e2 with
      | some e =>
          simp only [Option.some.injEq] at hr
          rw [← hr]
      | none =>
          simp only at hr
          cases hmk : makeBytes ((Uint64 sz).getD 0) with
          | none => simp [hmk] at hr
          | some b0 =>
              simp only [hmk] at hr
              rcases h3 : f2.ReadAt b0 (int64 (add64 pos lenWidth)) with ⟨f3, bb, n3, e3⟩
              rw [h3] at hr
              cases e3 with
              | some e =>
                  simp only [Option.some.injEq] at hr
                  rw [← hr]
              | none =>
                  simp only [Option.some.injEq] at hr
                  rw [← hr]

/-- `ReadAt` never changes the size counter, whatever the state of the store. -/
theorem store.ReadAt_size (s : store) (p : List Byte) (off : Int) :
    (s.ReadAt p off).1.size = s.size := by
  unfold store.ReadAt
  rcases h1 : s.buf.Flush s.File with ⟨b1, f1, e1⟩
  cases e1 with
  | some e => rfl
  | none => rfl

/-- `Append` leaves the size counter as it was or, when it returns no error, adds the
length of the payload and of its prefix, whatever the state of the store. -/
theorem store.Append_size (s : store) (p : List Byte) :
    (s.Append p).1.size = s.size ∨
      (s.Append p).1.size = add64 s.size ((p.length + lenWidth) % 2 ^ 64) := by
  cases he : (s.Append p).2.2.2 with
  | none => exact Or.inr (store.Append_ok s p he).2.2
  | some e =>
      left
      unfold store.Append at he ⊢
      rcases h1 : binaryWrite s.buf s.File (p.length % 2 ^ 64) with ⟨b1, f1, e1⟩
      simp only [h1] at he ⊢
      cases e1 with
      | some e1 => rfl
      | none =>
          rcases h2 : b1.Write f1 p with ⟨b2, f2, w, e2⟩
          simp only [h2] at he ⊢
          cases e2 with
          | some e2 => rfl
          | none => simp at he

/-- One call, on any store and with any failing system calls, does not decrease the size
counter and adds at most the bytes of the call. -/
theorem store.step_size (s s1 : store) (op : StoreOp) (hs : s.step op = some s1)
    (hlt : s.size + op.bytes < 2 ^ 64) :
    s.size ≤ s1.size ∧ s1.size ≤ s.size + op.bytes := by
  cases op with
  | Append p =>
      simp only [store.step, Option.some.injEq] at hs
      simp only [StoreOp.bytes] at hlt ⊢
      rw [← hs]
      rcases store.Append_size s p with h | h
      · rw [h]
        omega
      · have hm : (p.length + lenWidth) % 2 ^ 64 = p.length + 8 :=
          Nat.mod_eq_of_lt (by simp only [lenWidth]; omega)
        rw [h, hm, add64, Nat.mod_eq_of_lt (by omega)]
        omega
  | Read pos =>
      simp only [store.step, Option.map_eq_some'] at hs
      obtain ⟨r, hr, h1⟩ := hs
      have := store.Read_size s pos r hr
      rw [h1] at this
      simp only [StoreOp.bytes]
      omega
  | ReadAt p off =>
      simp only [store.step, Option.some.injEq] at hs
      have := store.ReadAt_size s p off
      rw [hs] at this
      simp only [StoreOp.bytes]
      omega

theorem store.run_size (ops : List StoreOp) :
    ∀ (s s1 : store), s.run ops = some s1 → s.size + (ops.map StoreOp.bytes).sum < 2 ^ 64 →
      s.size ≤ s1.size ∧ s1.size ≤ s.size + (ops.map StoreOp.bytes).sum := by
  induction ops with
  | nil =>
      intro s s1 h _
      simp only [store.run, Option.some.injEq] at h
      rw [h]
      simp
  | cons op ops ih =>
      intro s s1 h hlt
      simp only [List.map_cons, List.sum_cons] at hlt ⊢
      rw [store.run] at h
      cases hst : s.step op with
      | none => simp [hst] at h
      | some s2 =>
          simp only [hst] at h
          have a := store.step_size s s2 op hst (by omega)
          have b := ih s2 s1 h (by omega)
          omega

theorem store.run_append (xs ys : List StoreOp) :
    ∀ s : store, s.run (xs ++ ys) = (s.run xs).bind (fun s1 => s1.run ys) := by
  induction xs with
  | nil =>
      intro s
      rfl
  | cons x xs ih =>
      intro s
      rw [List.cons_append, store.run, store.run]
      cases s.step x with
      | none => rfl
      | some s2 => exact ih s2

theorem store.step_keeps (s s1 : store) (op : StoreOp) (hst : s.step op = some s1)
    (h : Sound s.buf s.File) (hsz : s.size = s.Content.length)
    (hlt : s.size + op.bytes < 2 ^ 64) :
    Sound s1.buf s1.File ∧ s1.size = s1.Content.length := by
  cases op with
  | Append p =>
      simp only [StoreOp.bytes] at hlt
      obtain ⟨s2, ha, h1, h2, h3⟩ := store.Append_sound h p
      have hm : (p.length + lenWidth) % 2 ^ 64 = p.length + 8 :=
        Nat.mod_eq_of_lt (by simp only [lenWidth]; omega)
      have hs1 : s2.size = s.size + (p.length + 8) := by
        rw [h1, hm, add64, Nat.mod_eq_of_lt (by omega)]
      simp only [store.step, ha, Option.some.injEq] at hst
      subst hst
      refine ⟨h3, ?_⟩
      rw [hs1, h2, hsz]
      simp only [List.length_append, PutUint64_length]
      omega
  | Read pos =>
      simp only [store.step, Option.map_eq_some'] at hst
      obtain ⟨r, hr, h0⟩ := hst
      obtain ⟨h1, h2, h3⟩ := store.Read_keeps s pos h r hr
      rw [h0] at h1 h2 h3
      exact ⟨h1, by rw [h3, h2, hsz]⟩
  | ReadAt p off =>
      simp only [store.step, Option.some.injEq] at hst
      obtain ⟨h1, h2, h3⟩ := store.ReadAt_keeps s p off h
      rw [hst] at h1 h2 h3
      exact ⟨h1, by rw [h3, h2, hsz]⟩

theorem store.run_keeps (ops : List StoreOp) :
    ∀ (s s1 : store), s.run ops = some s1 → Sound s.buf s.File →
      s.size = s.Content.length → s.size + (ops.map StoreOp.bytes).sum < 2 ^ 64 →
      Sound s1.buf s1.File ∧ s1.size = s1.Content.length := by
  induction ops with
  | nil =>
      intro s s1 hr h hsz _
      simp only [store.run, Option.some.injEq] at hr
      rw [← hr]
      exact ⟨h, hsz⟩
  | cons op ops ih =>
      intro s s1 hr h hsz hlt
      simp only [List.map_cons, List.sum_cons] at hlt
      rw [store.run] at hr
      cases hst : s.step op with
      | none => simp [hst] at hr
      | some s2 =>
          simp only [hst] at hr
          obtain ⟨a1, a2⟩ := store.step_keeps s s2 op hst h hsz (by omega)
          have a3 := store.step_size s s2 op hst (by omega)
          exact ih s2 s1 hr a1 a2 (by omega)

theorem sum_take_le (l : List Nat) :
    ∀ k : Nat, (l.take k).sum ≤ (l.take (k + 1)).sum ∧ (l.take (k + 1)).sum ≤ l.sum := by
  induction l with
  | nil =>
      intro k
      simp
  | cons a l ih =>
      intro k
      cases k with
      | zero => simp
      | succ k =>
          have := ih k
          simp only [List.take_succ_cons, List.sum_cons]
          omega

theorem newStore_sound_end {f : OsFile} {s : store} (hnf : f.NoFault)
    (hoff : f.off = f.data.length) (hs : newStore f = .ok s) :
    Sound s.buf s.File ∧ s.size = s.Content.length ∧ s.size = f.data.length := by
  simp only [newStore, OsFile.Stat, fault_of_noFault hnf, Except.ok.injEq] at hs
  subst hs
  refine ⟨⟨noFault_call hnf _, rfl, ?_⟩, ?_, rfl⟩
  · simp only [OsFile.call]
    exact hoff
  · simp [store.Content, OsFile.call, NewWriter]

/-- Claim C14, amended (store size invariant). A store is returned by `newStore` on any
file, with any schedule of failing system calls, and any sequence `ops` of `Append`, `Read`
and `ReadAt` calls is run on it, successful or failing, the appended bytes fitting the
`uint64` counter; `sk` is the store after the first `k` calls, none of which ended in a
run-time panic. Then (1) the size counter after `k + 1` calls is never less than the size
counter after `k` calls; and (2) when the descriptor writes at the end of the file and no
system call of the schedule fails, the size counter of `sk` equals the length of its
logical content, the bytes of the file followed by the buffered bytes. -/
theorem store_size_invariant (f : OsFile) (s sk : store) (ops : List StoreOp) (k : Nat)
    (hs : newStore f = .ok s)
    (hlen : f.data.length + (ops.map StoreOp.bytes).sum < 2 ^ 64)
    (hk : s.run (ops.take k) = some sk) :
    (∀ sk1, s.run (ops.take (k + 1)) = some sk1 → sk.size ≤ sk1.size) ∧
      (f.NoFault → f.off = f.data.length → sk.size = sk.Content.length) := by
  have hsz := newStore_size hs
  have hsum := sum_take_le (ops.map StoreOp.bytes)
  have hk0 : (List.take k (ops.map StoreOp.bytes)).sum ≤ (ops.map StoreOp.bytes).sum := by
    cases k with
    | zero => simp
    | succ j => exact (hsum j).2
  have hrun := store.run_size (ops.take k) s sk hk
    (by rw [List.map_take, hsz]; omega)
  rw [List.map_take] at hrun
  refine ⟨?_, ?_⟩
  · intro sk1 h1
    have hsplit : ops.take (k + 1) = ops.take k ++ (ops.drop k).take 1 := by
      rw [List.take_add]
    rw [hsplit, store.run_append, hk] at h1
    simp only [Option.some_bind] at h1
    have hb : (List.take k (ops.map StoreOp.bytes)).sum
        + (((ops.drop k).take 1).map StoreOp.bytes).sum
        = (List.take (k + 1) (ops.map StoreOp.bytes)).sum := by
      rw [← List.map_take, ← List.map_take, hsplit, List.map_append, List.sum_append,
        List.map_take]
    have := store.run_size ((ops.drop k).take 1) sk sk1 h1 (by
      have := (hsum k).2
      omega)
    exact this.1
  · intro hnf hoff
    obtain ⟨hS, hc, _⟩ := newStore_sound_end hnf hoff hs
    exact (store.run_keeps (ops.take k) s sk hk hS hc
      (by rw [List.map_take, hsz]; omega)).2

theorem store_size_invariant_witness :
    ∃ sk, store.fresh.run
        ([StoreOp.Append hello, StoreOp.Read 0, StoreOp.Append world].take 2) = some sk ∧
      ((∀ sk1, store.fresh.run
          ([StoreOp.Append hello, StoreOp.Read 0, StoreOp.Append world].take (2 + 1))
            = some sk1 → sk.size ≤ sk1.size) ∧
        (OsFile.empty.NoFault → OsFile.empty.off = OsFile.empty.data.length →
          sk.size = sk.Content.length)) :=
  ⟨_, rfl, store_size_invariant OsFile.empty store.fresh _
    [StoreOp.Append hello, StoreOp.Read 0, StoreOp.Append world] 2 rfl (by decide) rfl⟩

theorem Writer.Write_fits (c : Nat) (f : OsFile) (p : List Byte) (h : p.length ≤ c) :
    Writer.Write ⟨none, [], c⟩ f p = (⟨none, p, c⟩, f, p.length, none) := by
  have hx : ¬ (Writer.Available ⟨none, [], c⟩ < p.length ∧ (⟨none, [], c⟩ : Writer).err = none) := by
    simp only [Writer.Available, List.length_nil, Nat.sub_zero, and_true, not_lt]
    exact h
  simp only [Writer.Write, Writer.writeLoop_exit _ _ _ _ _ hx, Writer.Available, List.length_nil,
    Nat.sub_zero, List.nil_append, List.take_of_length_le h, Nat.zero_add, Nat.min_eq_right h]

theorem Writer.Write_flush_fails (c k : Nat) (q : List Byte) (f : OsFile) (p : List Byte)
    (hq : q ≠ []) (hp : c - q.length < p.length) (hf : f.fault = some k) :
    (Writer.Write ⟨none, q, c⟩ f p).1
        = ⟨some .Errno, (q ++ p.take (c - q.length)).drop
            (min k (q ++ p.take (c - q.length)).length), c⟩ ∧
      (Writer.Write ⟨none, q, c⟩ f p).2.1.data
        = writeAt f.data f.off ((q ++ p.take (c - q.length)).take k) ∧
      (Writer.Write ⟨none, q, c⟩ f p).2.2.2 = some .Errno := by
  have hne : ¬ q.length = 0 := by simpa [List.length_eq_zero] using hq
  have hne2 : ¬ (q ++ List.take (c - q.length) p).length = 0 := by
    simp [List.length_eq_zero, hq]
  unfold Writer.Write
  rw [Writer.writeLoop]
  simp only [Writer.Available, hp, and_self, if_true, Writer.Buffered, hne, if_false,
    Writer.Flush, hne2, OsFile.Write, hf]
  rw [Writer.writeLoop_exit _ _ _ _ _ (by simp)]
  exact ⟨rfl, rfl, rfl⟩

theorem store.Append_flush_fails (s : store) (c k : Nat) (p : List Byte)
    (hb : s.buf = ⟨none, [], c⟩) (hc : 8 ≤ c) (hp : c - 8 < p.length)
    (hf : s.File.fault = some k) :
    (s.Append p).2 = (0, 0, some .Errno) ∧ (s.Append p).1.size = s.size ∧
      (s.Append p).1.Content
        = writeAt s.File.data s.File.off
            ((PutUint64 (p.length % 2 ^ 64) ++ p.take (c - 8)).take k)
          ++ (PutUint64 (p.length % 2 ^ 64) ++ p.take (c - 8)).drop
              (min k (PutUint64 (p.length % 2 ^ 64) ++ p.take (c - 8)).length) := by
  have h1 := Writer.Write_fits c s.File (PutUint64 (p.length % 2 ^ 64))
    (by rw [PutUint64_length]; exact hc)
  obtain ⟨h2, h3, h4⟩ := Writer.Write_flush_fails c k (PutUint64 (p.length % 2 ^ 64)) s.File p
    (by simp [PutUint64]) (by rw [PutUint64_length]; exact hp) hf
  rw [PutUint64_length] at h2 h3
  rcases hw : Writer.Write ⟨none, PutUint64 (p.length % 2 ^ 64), c⟩ s.File p with ⟨b2, g, nn, e⟩
  rw [hw] at h2 h3 h4
  simp only at h2 h3 h4
  subst h2 h4
  simp only [store.Append, binaryWrite, hb, h1, hw, store.Content, h3, and_self]

theorem bigPayload_length : bigPayload.length = 4089 := by
  rw [bigPayload, List.length_replicate]

/-- Claim C14 as stated fails in two ways. (1) A failing `Append`: on the store that
`newStore` returns for the empty file `OsFile.failingWrite`, whose first write fails, the
size counter equals the content length (both 0); `Append` of a 4089-byte payload fills the
4096-byte buffer with the length prefix and 4088 payload bytes, the flush fails, `Append`
returns `(0, 0, err)`, and the size counter is still 0 while the logical content has 4096
bytes. (2) A descriptor that does not write at the end: on the store for the 13-byte file
`OsFile.helloRecord`, opened at offset 0, `Append "world!!"` then `Read 0` overwrite the
file from its start; no call reports a write failure or panics, the size counter is 28 and
the logical content has 15 bytes. -/
theorem store_size_invariant_counterexample :
    (∃ s, newStore OsFile.failingWrite = .ok s ∧ s.size = s.Content.length ∧
      (s.Append bigPayload).2 = (0, 0, some .Errno) ∧ (s.Append bigPayload).1.size = 0 ∧
      (s.Append bigPayload).1.Content.length = 4096) ∧
    (∃ s s2, newStore OsFile.helloRecord = .ok s ∧ s.size = s.Content.length ∧
      (s.Append world).2.2.2 = none ∧
      s.run [StoreOp.Append world, StoreOp.Read 0] = some s2 ∧
      s2.size = 28 ∧ s2.Content.length = 15) := by
  have h := store.Append_flush_fails
    (store.mk (OsFile.failingWrite.call .stat) NewWriter 0) 4096 0 bigPayload rfl (by decide)
    (by rw [bigPayload_length]; decide) rfl
  refine ⟨⟨store.mk (OsFile.failingWrite.call .stat) NewWriter 0, rfl, rfl, h.1, h.2.1, ?_⟩,
    ⟨_, _, rfl, rfl, by decide, rfl, by decide, by decide⟩⟩
  rw [h.2.2]
  simp only [List.take_zero, writeAt, List.length_nil, if_true, Nat.zero_min, List.drop_zero,
    List.length_append, PutUint64_length, List.length_take, bigPayload_length]
  rfl

theorem frames_eq_recordFrames (ps : List (List Byte)) : frames ps = recordFrames ps := by
  induction ps with
  | nil => rfl
  | cons p ps ih => rw [frames, recordFrames, ih, PutUint64_eq_beBytes]

/-- Claim C10 (store file format seen through `ReadAt`). For a store opened on an empty file
whose system calls do not fail, after the payloads `ps` are appended in order and without
`Close`, `ReadAt` at offset 0 with a buffer of length `8 * n + sum of the lengths` returns
that length and no error, and the buffer holds `recordFrames ps`: for each payload in
order the eight big-endian bytes of its length (`beBytes 8`, most significant byte first)
followed by its bytes, with nothing in between. -/
theorem store_file_format (f : OsFile) (s : store) (ps : List (List Byte)) (b : List Byte)
    (hd : f.data = []) (hoff : f.off = 0) (hnf : f.NoFault) (hs : newStore f = .ok s)
    (hb : b.length = 8 * ps.length + (ps.map List.length).sum) :
    ((s.AppendAll ps).1.ReadAt b 0).2 = (recordFrames ps, b.length, none) := by
  rw [← frames_eq_recordFrames]
  exact store.ReadAt_all_frames f s ps b hd hoff hnf hs hb

theorem store_file_format_witness :
    ((store.fresh.AppendAll [hello, world]).1.ReadAt (List.replicate 28 0) 0).2
      = ([0, 0, 0, 0, 0, 0, 0, 5, 104, 101, 108, 108, 111,
          0, 0, 0, 0, 0, 0, 0, 7, 119, 111, 114, 108, 100, 33, 33], 28, none) :=
  store_file_format OsFile.empty store.fresh [hello, world] (List.replicate 28 0) rfl rfl
    (by decide) rfl (by decide)

end Proglog
